import Mathlib

/-!
Shallow embedding of the cache simulator in `src/cache.py` (class `CacheLevel`).

Modelling conventions:
* Python arbitrary-precision non-negative integers are `Nat`; Python's
  `a & ~(m)` on non-negative `a` equals `a - (a &&& m)`, which is how
  `_calculate_block_address` is rendered.
* An `OrderedDict` of a cache set is the ordered list of its keys (the stored
  values are always `None`); a plain metadata `dict` is an association list
  from tag to the dirty bit.
* The topology links of a level (`higher_level` toward memory, `lower_level`
  toward the requester) are represented positionally: a hierarchy is the list
  of levels ordered from the level receiving a request toward memory, so the
  tail of the list is the `higher_level` chain of the head.  The code reads
  `lower_level` only for its truthiness (`operation if self.lower_level else
  'R'`), which is passed as the boolean `hasLower`.  `evict` and `invalidate`
  never touch `lower_level` at all.
* The mutually recursive calls `access` -> `evict` -> `invalidate` ->
  `higher_level.access` are driven by a fuel parameter so the function is
  structurally recursive; every nested call strips at least one unit of fuel
  and recursion into the tail happens after at most three units, so fuel
  `3 * length + 3` always suffices and the fuel-exhausted branch is
  unreachable from the entry points below.
-/

inductive Policy where
  | FIFO
  | LRU
  | MRU
deriving DecidableEq, Repr

/-- Operation codes are the raw strings the Python code compares against
(`'R'`, `'W'`, or anything else the caller passes). -/
abbrev Op := String

/-- State and configuration of one `CacheLevel` instance.  The
`eviction_policy` string is stored upper-cased and then only ever compared
against `"FIFO"`/`"LRU"`/`"MRU"`, which is modelled by the `Policy` variant;
`write_policy` is stored and never read again. -/
structure CacheLevel where
  name : String
  cacheSize : Nat
  blockSize : Nat
  associativity : Nat
  policy : Policy
  writePolicy : String
  numSets : Nat
  offsetBits : Nat
  indexBits : Nat
  cache : List (List Nat)
  cacheMetadata : List (List (Nat × Bool))
deriving DecidableEq, Repr

/-- Python's `int.bit_length` on a non-negative integer. -/
def bitLength (n : Nat) : Nat := if n = 0 then 0 else Nat.log2 n + 1

/-- The `CacheLevel.__init__` body.  The only failure the Python constructor
can produce is the `ZeroDivisionError` of `size // (block_size *
associativity)`; it performs no other validation. -/
def CacheLevel.init (size blockSize associativity : Nat) (policy : Policy)
    (writePolicy levelName : String) : Except String CacheLevel :=
  if blockSize * associativity = 0 then
    Except.error "ZeroDivisionError"
  else
    let numSets := size / (blockSize * associativity)
    Except.ok
      { name := levelName
        cacheSize := size
        blockSize := blockSize
        associativity := associativity
        policy := policy
        writePolicy := writePolicy.toUpper
        numSets := numSets
        offsetBits := bitLength blockSize - 1
        indexBits := bitLength numSets - 1
        cache := List.replicate numSets []
        cacheMetadata := List.replicate numSets [] }

/-- Lookup in a metadata dict: `d.get(tag, {}).get("dirty", ...)` style. -/
def dictLookup (d : List (Nat × Bool)) (k : Nat) : Option Bool :=
  match d.find? (fun p => p.1 == k) with
  | some p => some p.2
  | none => none

def dictContains (d : List (Nat × Bool)) (k : Nat) : Bool :=
  (dictLookup d k).isSome

/-- Python dict assignment `d[k] = v`: update in place when the key exists,
append otherwise. -/
def dictInsert (d : List (Nat × Bool)) (k : Nat) (v : Bool) : List (Nat × Bool) :=
  if dictContains d k then d.map (fun p => if p.1 == k then (k, v) else p)
  else d ++ [(k, v)]

/-- Python `del d[k]` (keys of a dict are unique, so filtering is removal). -/
def dictErase (d : List (Nat × Bool)) (k : Nat) : List (Nat × Bool) :=
  d.filter (fun p => p.1 != k)

/-- The set `self.cache[cache_index]` as its ordered key list. -/
def cacheSet (lv : CacheLevel) (i : Nat) : List Nat := lv.cache.getD i []

/-- The dict `self.cache_metadata[cache_index]`. -/
def metaDict (lv : CacheLevel) (i : Nat) : List (Nat × Bool) :=
  lv.cacheMetadata.getD i []

/-- `_calculate_index`. -/
def CacheLevel.calcIndex (lv : CacheLevel) (address : Nat) : Nat :=
  (address >>> lv.offsetBits) &&& (lv.numSets - 1)

/-- `_calculate_tag`. -/
def CacheLevel.calcTag (lv : CacheLevel) (address : Nat) : Nat :=
  address >>> (lv.indexBits + lv.offsetBits)

/-- `_calculate_block_address`: `address & ~(block_size - 1)`; on
non-negative integers this equals subtracting the masked-off low bits. -/
def CacheLevel.calcBlockAddress (lv : CacheLevel) (address : Nat) : Nat :=
  address - (address &&& (lv.blockSize - 1))

/-- `_calculate_block_address_from_tag_index`. -/
def CacheLevel.calcBlockAddressFromTagIndex (lv : CacheLevel) (tag cacheIndex : Nat) : Nat :=
  (tag <<< (lv.indexBits + lv.offsetBits)) ||| (cacheIndex <<< lv.offsetBits)

/-- `is_dirty`. -/
def CacheLevel.isDirty (lv : CacheLevel) (blockAddress : Nat) : Bool :=
  (dictLookup (metaDict lv (lv.calcIndex blockAddress)) (lv.calcTag blockAddress)).getD false

/-- Residency query, the `tag in self.cache[cache_index]` test used by
`access` and `invalidate` (the spec calls it `has_block`). -/
def CacheLevel.hasBlock (lv : CacheLevel) (address : Nat) : Bool :=
  (cacheSet lv (lv.calcIndex address)).contains (lv.calcTag address)

/-- `_update_recency`: `move_to_end(tag)` for LRU, `move_to_end(tag,
last=False)` for MRU, nothing for FIFO.  The call site guarantees the tag is
present in the set. -/
def CacheLevel.updateRecency (lv : CacheLevel) (cacheIndex tag : Nat) : CacheLevel :=
  let s := cacheSet lv cacheIndex
  match lv.policy with
  | .LRU => { lv with cache := lv.cache.set cacheIndex (s.erase tag ++ [tag]) }
  | .MRU => { lv with cache := lv.cache.set cacheIndex (tag :: s.erase tag) }
  | .FIFO => lv

/-- The hit-path assignment `self.cache_metadata[cache_index][tag]["dirty"] =
True` (the tag is resident there whenever this runs). -/
def CacheLevel.setDirty (lv : CacheLevel) (cacheIndex tag : Nat) (v : Bool) : CacheLevel :=
  { lv with
    cacheMetadata := lv.cacheMetadata.set cacheIndex (dictInsert (metaDict lv cacheIndex) tag v) }

/-- Notification events, in the order the `report_*` hooks fire. -/
inductive Event where
  | hit (level : String) (op : Op) (address : Nat)
  | miss (level : String) (op : Op) (address : Nat)
  | writeback (level : String) (address : Nat)
  | eviction (level : String) (address : Nat)
deriving DecidableEq, Repr

/-- The allocation on the miss path of `access`: `self.cache[cache_index][tag]
= None` (a fresh key appends at the end of the ordered dict) together with
`self.cache_metadata[cache_index][tag] = ... dirty ...`. -/
def CacheLevel.insertBlock (lv : CacheLevel) (cacheIndex tag : Nat) (dirty : Bool) : CacheLevel :=
  { lv with
    cache := lv.cache.set cacheIndex (cacheSet lv cacheIndex ++ [tag])
    cacheMetadata := lv.cacheMetadata.set cacheIndex
      (dictInsert (metaDict lv cacheIndex) tag dirty) }

/-- The removal at the end of `invalidate`: `del self.cache[cache_index][tag]`
and `del self.cache_metadata[cache_index][tag]`. -/
def CacheLevel.eraseBlock (lv : CacheLevel) (cacheIndex tag : Nat) : CacheLevel :=
  { lv with
    cache := lv.cache.set cacheIndex ((cacheSet lv cacheIndex).erase tag)
    cacheMetadata := lv.cacheMetadata.set cacheIndex (dictErase (metaDict lv cacheIndex) tag) }

/-- Victim selection in `evict` over a non-empty set: `next(iter(...))` for
FIFO and LRU, `next(reversed(...))` for MRU. -/
def victimOf (policy : Policy) (t : Nat) (ts : List Nat) : Nat :=
  match policy with
  | .FIFO => t
  | .LRU => t
  | .MRU => (t :: ts).getLast (List.cons_ne_nil t ts)

/-- The three methods that can run against a chain of levels.  `access`
carries the truthiness of `self.lower_level` of the chain's head. -/
inductive Req where
  | access (hasLower : Bool) (op : Op) (address : Nat)
  | evict (cacheIndex : Nat)
  | invalidate (blockAddress : Nat)
deriving DecidableEq, Repr

/-- One method call on the head of a level chain, returning the updated chain
and the fired events.  Each branch is a direct transcription of the
corresponding method body of `src/cache.py`; fuel only drives termination. -/
def run : Nat → List CacheLevel → Req → List CacheLevel × List Event
  | 0, levels, _ => (levels, [])
  | _ + 1, [], _ => ([], [])
  | fuel + 1, lv :: rest, .access hasLower op address =>
      let blockAddr := lv.calcBlockAddress address
      let cacheIndex := lv.calcIndex blockAddr
      let tag := lv.calcTag blockAddr
      if (cacheSet lv cacheIndex).contains tag then
        let lv2 := if op == "W" then lv.setDirty cacheIndex tag true else lv
        let lv3 := lv2.updateRecency cacheIndex tag
        (lv3 :: rest, [.hit lv.name op address])
      else
        let afterEvict :=
          if lv.associativity ≤ (cacheSet lv cacheIndex).length then
            run fuel (lv :: rest) (.evict cacheIndex)
          else (lv :: rest, [])
        match afterEvict with
        | (lv2 :: rest2, evs1) =>
            let propOp := if hasLower then op else "R"
            let fetched := run fuel rest2 (.access true propOp blockAddr)
            (lv2.insertBlock cacheIndex tag (op == "W") :: fetched.1,
             .miss lv.name op address :: (evs1 ++ fetched.2))
        | ([], evs1) => ([], evs1)  -- never taken: `run` preserves chain length
  | fuel + 1, lv :: rest, .evict cacheIndex =>
      match cacheSet lv cacheIndex with
      | [] => (lv :: rest, [])
      | t :: ts =>
          run fuel (lv :: rest)
            (.invalidate (lv.calcBlockAddressFromTagIndex (victimOf lv.policy t ts) cacheIndex))
  | fuel + 1, lv :: rest, .invalidate blockAddress =>
      let cacheIndex := lv.calcIndex blockAddress
      let tag := lv.calcTag blockAddress
      if (cacheSet lv cacheIndex).contains tag then
        let dirtyFlag := (dictLookup (metaDict lv cacheIndex) tag).getD false
        let pushed :=
          if dirtyFlag then
            let r := run fuel rest (.access true "W" blockAddress)
            (r.1, Event.writeback lv.name blockAddress :: r.2)
          else (rest, [])
        (lv.eraseBlock cacheIndex tag :: pushed.1,
         pushed.2 ++ [.eviction lv.name blockAddress])
      else (lv :: rest, [])

/-- Entry point: a request entering at the outermost level of the chain
(`lower_level` is `None` there).  The fuel bound always suffices. -/
def accessTop (levels : List CacheLevel) (op : Op) (address : Nat) :
    List CacheLevel × List Event :=
  run (3 * levels.length + 3) levels (.access false op address)

/-- Replay of a trace of operations through the hierarchy. -/
def runTrace (levels : List CacheLevel) (trace : List (Op × Nat)) :
    List CacheLevel × List Event :=
  trace.foldl (fun acc p =>
    let r := accessTop acc.1 p.1 p.2
    (r.1, acc.2 ++ r.2)) (levels, [])

/-! ### Basic lemmas about the list and dict primitives -/

lemma getD_set_self {α : Type} (l : List α) (i : Nat) (x d : α) (h : i < l.length) :
    (l.set i x).getD i d = x := by
  simp [List.getD, List.getElem?_set_self, h]

lemma getD_set_ne {α : Type} (l : List α) {i j : Nat} (x d : α) (h : i ≠ j) :
    (l.set i x).getD j d = l.getD j d := by
  simp [List.getD, List.getElem?_set_ne, h]

lemma getD_set_le {α : Type} (l : List α) {i : Nat} (x d : α) (h : l.length ≤ i) :
    (l.set i x).getD i d = l.getD i d := by
  rw [List.set_eq_of_length_le h]


lemma dictLookup_nil (k : Nat) : dictLookup [] k = none := rfl

lemma dictLookup_cons (p : Nat × Bool) (d : List (Nat × Bool)) (k : Nat) :
    dictLookup (p :: d) k = if p.1 = k then some p.2 else dictLookup d k := by
  by_cases h : p.1 = k <;> simp [dictLookup, List.find?_cons, h]

lemma dictContains_iff (d : List (Nat × Bool)) (k : Nat) :
    dictContains d k = true ↔ k ∈ d.map Prod.fst := by
  induction d with
  | nil => simp [dictContains, dictLookup]
  | cons p d ih =>
      by_cases h : p.1 = k
      · simp [dictContains, dictLookup_cons, h]
      · simp only [dictContains, dictLookup_cons, if_neg h, List.map_cons, List.mem_cons]
        rw [← dictContains]
        simp [ih, Ne.symm h]

lemma dictLookup_insert_self (d : List (Nat × Bool)) (k : Nat) (v : Bool) :
    dictLookup (dictInsert d k v) k = some v := by
  unfold dictInsert
  by_cases h : dictContains d k = true
  · rw [if_pos h]
    induction d with
    | nil => simp [dictContains, dictLookup] at h
    | cons p d ih =>
        by_cases hp : p.1 = k
        · simp [dictLookup_cons, hp]
        · have h' : dictContains d k = true := by
            simpa [dictContains, dictLookup_cons, if_neg hp] using h
          simp only [List.map_cons]
          rw [if_neg (by simp [hp])]
          rw [dictLookup_cons, if_neg hp]
          exact ih h'
  · rw [if_neg h]
    induction d with
    | nil => simp [dictLookup_cons]
    | cons p d ih =>
        have hp : p.1 ≠ k := by
          intro he
          exact h (by simp [dictContains, dictLookup_cons, he])
        have h' : ¬dictContains d k = true := by
          intro hc
          rw [dictContains_iff] at hc
          exact h ((dictContains_iff _ _).mpr (by simp [hc]))
        rw [List.cons_append, dictLookup_cons, if_neg hp]
        exact ih h'

lemma keys_dictInsert_of_contains (d : List (Nat × Bool)) (k : Nat) (v : Bool)
    (h : dictContains d k = true) :
    (dictInsert d k v).map Prod.fst = d.map Prod.fst := by
  unfold dictInsert
  rw [if_pos h, List.map_map]
  refine List.map_congr_left fun p _ => ?_
  by_cases hp : p.1 = k
  · simp [hp]
  · simp [hp]

lemma mem_keys_dictInsert (d : List (Nat × Bool)) (k t : Nat) (v : Bool) :
    t ∈ (dictInsert d k v).map Prod.fst ↔ t ∈ d.map Prod.fst ∨ t = k := by
  by_cases h : dictContains d k = true
  · rw [keys_dictInsert_of_contains d k v h]
    constructor
    · exact Or.inl
    · rintro (ht | rfl)
      · exact ht
      · exact (dictContains_iff d t).mp h
  · unfold dictInsert
    rw [if_neg h]
    simp

lemma mem_keys_dictErase (d : List (Nat × Bool)) (k t : Nat) :
    t ∈ (dictErase d k).map Prod.fst ↔ t ∈ d.map Prod.fst ∧ t ≠ k := by
  unfold dictErase
  induction d with
  | nil => simp
  | cons p d ih =>
      by_cases hp : p.1 = k
      · rw [List.filter_cons]
        simp only [hp]
        rw [if_neg (by simp)]
        rw [ih]
        simp only [List.map_cons, List.mem_cons]
        constructor
        · exact fun ⟨ht, hn⟩ => ⟨Or.inr ht, hn⟩
        · rintro ⟨(rfl | ht), hn⟩
          · exact absurd hp hn
          · exact ⟨ht, hn⟩
      · rw [List.filter_cons]
        rw [if_pos (by simp [hp])]
        simp only [List.map_cons, List.mem_cons]
        rw [ih]
        constructor
        · rintro (rfl | ⟨ht, hn⟩)
          · exact ⟨Or.inl rfl, hp⟩
          · exact ⟨Or.inr ht, hn⟩
        · rintro ⟨(rfl | ht), hn⟩
          · exact Or.inl rfl
          · exact Or.inr ⟨ht, hn⟩

/-! ### Address decomposition arithmetic -/

lemma calcIndex_lt (lv : CacheLevel) (a : Nat) (h : lv.numSets = 2 ^ lv.indexBits) :
    lv.calcIndex a < lv.numSets := by
  unfold CacheLevel.calcIndex
  rw [h]
  have h1 : (a >>> lv.offsetBits) &&& (2 ^ lv.indexBits - 1) ≤ 2 ^ lv.indexBits - 1 :=
    Nat.and_le_right
  have h2 := Nat.two_pow_pos lv.indexBits
  omega

lemma recompose_eq_add (lv : CacheLevel) (t i : Nat) (hi : i < 2 ^ lv.indexBits) :
    lv.calcBlockAddressFromTagIndex t i
      = t * 2 ^ (lv.indexBits + lv.offsetBits) + i * 2 ^ lv.offsetBits := by
  unfold CacheLevel.calcBlockAddressFromTagIndex
  rw [Nat.shiftLeft_eq, Nat.shiftLeft_eq]
  have hb : i * 2 ^ lv.offsetBits < 2 ^ (lv.indexBits + lv.offsetBits) := by
    rw [pow_add]
    exact Nat.mul_lt_mul_of_lt_of_le hi (Nat.le_refl _) (Nat.two_pow_pos _)
  calc t * 2 ^ (lv.indexBits + lv.offsetBits) ||| i * 2 ^ lv.offsetBits
      = 2 ^ (lv.indexBits + lv.offsetBits) * t ||| i * 2 ^ lv.offsetBits := by rw [mul_comm]
    _ = 2 ^ (lv.indexBits + lv.offsetBits) * t + i * 2 ^ lv.offsetBits :=
        (Nat.mul_add_lt_is_or hb t).symm
    _ = t * 2 ^ (lv.indexBits + lv.offsetBits) + i * 2 ^ lv.offsetBits := by rw [mul_comm]

lemma roundtrip_tag (lv : CacheLevel) (t i : Nat) (hi : i < 2 ^ lv.indexBits) :
    lv.calcTag (lv.calcBlockAddressFromTagIndex t i) = t := by
  unfold CacheLevel.calcTag
  rw [recompose_eq_add lv t i hi, Nat.shiftRight_eq_div_pow]
  have hb : i * 2 ^ lv.offsetBits < 2 ^ (lv.indexBits + lv.offsetBits) := by
    rw [pow_add]
    exact Nat.mul_lt_mul_of_lt_of_le hi (Nat.le_refl _) (Nat.two_pow_pos _)
  rw [mul_comm t, Nat.mul_add_div (Nat.two_pow_pos _), Nat.div_eq_of_lt hb, Nat.add_zero]

lemma roundtrip_index (lv : CacheLevel) (t i : Nat) (h : lv.numSets = 2 ^ lv.indexBits)
    (hi : i < 2 ^ lv.indexBits) :
    lv.calcIndex (lv.calcBlockAddressFromTagIndex t i) = i := by
  unfold CacheLevel.calcIndex
  rw [recompose_eq_add lv t i hi, Nat.shiftRight_eq_div_pow, h]
  have h1 : (t * 2 ^ (lv.indexBits + lv.offsetBits) + i * 2 ^ lv.offsetBits)
      / 2 ^ lv.offsetBits = t * 2 ^ lv.indexBits + i := by
    rw [pow_add]
    have : t * (2 ^ lv.indexBits * 2 ^ lv.offsetBits) + i * 2 ^ lv.offsetBits
        = 2 ^ lv.offsetBits * (t * 2 ^ lv.indexBits + i) := by ring
    rw [this, Nat.mul_div_cancel_left _ (Nat.two_pow_pos _)]
  rw [h1, Nat.and_pow_two_sub_one_eq_mod, mul_comm, Nat.mul_add_mod, Nat.mod_eq_of_lt hi]

/-! ### Chain-shape and unfolding lemmas for `run` -/

lemma run_length (fuel : Nat) : ∀ (levels : List CacheLevel) (req : Req),
    (run fuel levels req).1.length = levels.length := by
  induction fuel with
  | zero => intro levels req; rfl
  | succ fuel ih =>
      intro levels req
      match levels, req with
      | [], _ => rfl
      | lv :: rest, .access hasLower op address =>
          simp only [run]
          split
          · simp
          · split
            case _ lv2 rest2 evs1 heq =>
                have hh := congrArg (fun p : List CacheLevel × List Event => p.1.length) heq
                simp only at hh
                have hlen : rest2.length = rest.length := by
                  by_cases hfull : lv.associativity
                      ≤ (cacheSet lv (lv.calcIndex (lv.calcBlockAddress address))).length
                  · rw [if_pos hfull, ih (lv :: rest) _] at hh
                    simp at hh
                    omega
                  · rw [if_neg hfull] at hh
                    simp at hh
                    omega
                simp only [List.length_cons]
                rw [ih rest2 _, hlen]
            case _ evs1 heq =>
                exfalso
                have hh := congrArg (fun p : List CacheLevel × List Event => p.1.length) heq
                simp only at hh
                by_cases hfull : lv.associativity
                    ≤ (cacheSet lv (lv.calcIndex (lv.calcBlockAddress address))).length
                · rw [if_pos hfull, ih (lv :: rest) _] at hh
                  simp at hh
                · rw [if_neg hfull] at hh
                  simp at hh
      | lv :: rest, .evict cacheIndex =>
          simp only [run]
          split
          · rfl
          · exact ih (lv :: rest) _
      | lv :: rest, .invalidate blockAddress =>
          simp only [run]
          split
          · split
            · simp only [List.length_cons]
              rw [ih rest _]
            · simp
          · rfl

lemma run_access_hit (fuel : Nat) (lv : CacheLevel) (rest : List CacheLevel)
    (hasLower : Bool) (op : Op) (address : Nat)
    (hc : lv.calcTag (lv.calcBlockAddress address) ∈
      cacheSet lv (lv.calcIndex (lv.calcBlockAddress address))) :
    run (fuel + 1) (lv :: rest) (.access hasLower op address) =
      (((if op == "W" then
          lv.setDirty (lv.calcIndex (lv.calcBlockAddress address))
            (lv.calcTag (lv.calcBlockAddress address)) true
        else lv).updateRecency (lv.calcIndex (lv.calcBlockAddress address))
          (lv.calcTag (lv.calcBlockAddress address))) :: rest,
       [.hit lv.name op address]) := by
  simp only [run]
  rw [if_pos (by simpa using hc)]

lemma run_access_miss_notfull (fuel : Nat) (lv : CacheLevel) (rest : List CacheLevel)
    (hasLower : Bool) (op : Op) (address : Nat)
    (hc : lv.calcTag (lv.calcBlockAddress address) ∉
      cacheSet lv (lv.calcIndex (lv.calcBlockAddress address)))
    (hroom : ¬ lv.associativity ≤ (cacheSet lv (lv.calcIndex (lv.calcBlockAddress address))).length) :
    run (fuel + 1) (lv :: rest) (.access hasLower op address) =
      (lv.insertBlock (lv.calcIndex (lv.calcBlockAddress address))
          (lv.calcTag (lv.calcBlockAddress address)) (op == "W")
        :: (run fuel rest (.access true (if hasLower then op else "R")
              (lv.calcBlockAddress address))).1,
       .miss lv.name op address
        :: (run fuel rest (.access true (if hasLower then op else "R")
              (lv.calcBlockAddress address))).2) := by
  simp only [run]
  rw [if_neg (by simpa using hc), if_neg hroom]
  rfl

lemma run_access_miss_full (fuel : Nat) (lv : CacheLevel) (rest : List CacheLevel)
    (hasLower : Bool) (op : Op) (address : Nat)
    (lv2 : CacheLevel) (rest2 : List CacheLevel) (evs1 : List Event)
    (hc : lv.calcTag (lv.calcBlockAddress address) ∉
      cacheSet lv (lv.calcIndex (lv.calcBlockAddress address)))
    (hfull : lv.associativity ≤ (cacheSet lv (lv.calcIndex (lv.calcBlockAddress address))).length)
    (heq : run fuel (lv :: rest) (.evict (lv.calcIndex (lv.calcBlockAddress address)))
      = (lv2 :: rest2, evs1)) :
    run (fuel + 1) (lv :: rest) (.access hasLower op address) =
      (lv2.insertBlock (lv.calcIndex (lv.calcBlockAddress address))
          (lv.calcTag (lv.calcBlockAddress address)) (op == "W")
        :: (run fuel rest2 (.access true (if hasLower then op else "R")
              (lv.calcBlockAddress address))).1,
       .miss lv.name op address
        :: (evs1 ++ (run fuel rest2 (.access true (if hasLower then op else "R")
              (lv.calcBlockAddress address))).2)) := by
  simp only [run]
  rw [if_neg (by simpa using hc), if_pos hfull, heq]

lemma run_evict_nil (fuel : Nat) (lv : CacheLevel) (rest : List CacheLevel) (cacheIndex : Nat)
    (hs : cacheSet lv cacheIndex = []) :
    run (fuel + 1) (lv :: rest) (.evict cacheIndex) = (lv :: rest, []) := by
  simp only [run, hs]

lemma run_evict_cons (fuel : Nat) (lv : CacheLevel) (rest : List CacheLevel) (cacheIndex : Nat)
    (t : Nat) (ts : List Nat) (hs : cacheSet lv cacheIndex = t :: ts) :
    run (fuel + 1) (lv :: rest) (.evict cacheIndex) =
      run fuel (lv :: rest)
        (.invalidate (lv.calcBlockAddressFromTagIndex (victimOf lv.policy t ts) cacheIndex)) := by
  simp only [run, hs]

lemma run_invalidate_resident (fuel : Nat) (lv : CacheLevel) (rest : List CacheLevel) (a : Nat)
    (hc : lv.calcTag a ∈ cacheSet lv (lv.calcIndex a)) :
    run (fuel + 1) (lv :: rest) (.invalidate a) =
      (lv.eraseBlock (lv.calcIndex a) (lv.calcTag a) ::
        (if (dictLookup (metaDict lv (lv.calcIndex a)) (lv.calcTag a)).getD false then
          (run fuel rest (.access true "W" a)).1 else rest),
       (if (dictLookup (metaDict lv (lv.calcIndex a)) (lv.calcTag a)).getD false then
          Event.writeback lv.name a :: (run fuel rest (.access true "W" a)).2 else [])
        ++ [.eviction lv.name a]) := by
  simp only [run]
  rw [if_pos (by simpa using hc)]
  by_cases hd : (dictLookup (metaDict lv (lv.calcIndex a)) (lv.calcTag a)).getD false = true
  · rw [if_pos hd, if_pos hd, if_pos hd]
  · rw [if_neg hd, if_neg hd, if_neg hd]

lemma run_invalidate_absent (fuel : Nat) (lv : CacheLevel) (rest : List CacheLevel) (a : Nat)
    (hc : lv.calcTag a ∉ cacheSet lv (lv.calcIndex a)) :
    run (fuel + 1) (lv :: rest) (.invalidate a) = (lv :: rest, []) := by
  simp only [run]
  rw [if_neg (by simpa using hc)]

/-! ### Structural invariants of a level -/

/-- Geometry facts every constructor-produced level with power-of-two
geometry satisfies, and which the protocol preserves. -/
def wellFormed (lv : CacheLevel) : Prop :=
  lv.numSets = 2 ^ lv.indexBits ∧ lv.cache.length = lv.numSets ∧
  lv.cacheMetadata.length = lv.numSets ∧ 1 ≤ lv.associativity

/-- Capacity invariant of the spec: every set holds at most `associativity`
tags. -/
def capacityOK (lv : CacheLevel) : Prop :=
  ∀ i, (cacheSet lv i).length ≤ lv.associativity

/-- Tags within one set are unique (an `OrderedDict` cannot hold duplicate
keys). -/
def nodupOK (lv : CacheLevel) : Prop := ∀ i, (cacheSet lv i).Nodup

/-- The key set of `cache[i]` coincides with the key set of
`cache_metadata[i]`. -/
def syncOK (lv : CacheLevel) : Prop :=
  ∀ i t, t ∈ cacheSet lv i ↔ t ∈ (metaDict lv i).map Prod.fst

def LevelInv (lv : CacheLevel) : Prop := wellFormed lv ∧ capacityOK lv ∧ nodupOK lv ∧ syncOK lv

@[reducible] def AllInv (levels : List CacheLevel) : Prop := ∀ lv ∈ levels, LevelInv lv

lemma getD_after_set {α : Type} (l : List α) (i j : Nat) (x d : α) :
    (l.set i x).getD j d = if j = i ∧ i < l.length then x else l.getD j d := by
  by_cases h1 : j = i
  · subst h1
    by_cases h2 : j < l.length
    · rw [getD_set_self _ _ _ _ h2, if_pos ⟨rfl, h2⟩]
    · rw [if_neg (by tauto), List.set_eq_of_length_le (by omega)]
  · rw [getD_set_ne l x d (fun he => h1 (Eq.symm he)), if_neg (by tauto)]

lemma cacheSet_eraseBlock (lv : CacheLevel) (i tag j : Nat) :
    cacheSet (lv.eraseBlock i tag) j =
      if j = i ∧ i < lv.cache.length then (cacheSet lv i).erase tag else cacheSet lv j := by
  simp only [CacheLevel.eraseBlock, cacheSet]
  exact getD_after_set _ _ _ _ _

lemma metaDict_eraseBlock (lv : CacheLevel) (i tag j : Nat) :
    metaDict (lv.eraseBlock i tag) j =
      if j = i ∧ i < lv.cacheMetadata.length then dictErase (metaDict lv i) tag
      else metaDict lv j := by
  simp only [CacheLevel.eraseBlock, metaDict]
  exact getD_after_set _ _ _ _ _

lemma cacheSet_insertBlock (lv : CacheLevel) (i tag : Nat) (dirty : Bool) (j : Nat) :
    cacheSet (lv.insertBlock i tag dirty) j =
      if j = i ∧ i < lv.cache.length then cacheSet lv i ++ [tag] else cacheSet lv j := by
  simp only [CacheLevel.insertBlock, cacheSet]
  exact getD_after_set _ _ _ _ _

lemma metaDict_insertBlock (lv : CacheLevel) (i tag : Nat) (dirty : Bool) (j : Nat) :
    metaDict (lv.insertBlock i tag dirty) j =
      if j = i ∧ i < lv.cacheMetadata.length then dictInsert (metaDict lv i) tag dirty
      else metaDict lv j := by
  simp only [CacheLevel.insertBlock, metaDict]
  exact getD_after_set _ _ _ _ _

lemma cacheSet_setDirty (lv : CacheLevel) (i tag : Nat) (v : Bool) (j : Nat) :
    cacheSet (lv.setDirty i tag v) j = cacheSet lv j := rfl

lemma metaDict_setDirty (lv : CacheLevel) (i tag : Nat) (v : Bool) (j : Nat) :
    metaDict (lv.setDirty i tag v) j =
      if j = i ∧ i < lv.cacheMetadata.length then dictInsert (metaDict lv i) tag v
      else metaDict lv j := by
  simp only [CacheLevel.setDirty, metaDict]
  exact getD_after_set _ _ _ _ _

lemma metaDict_updateRecency (lv : CacheLevel) (i tag : Nat) (j : Nat) :
    metaDict (lv.updateRecency i tag) j = metaDict lv j := by
  unfold CacheLevel.updateRecency
  cases lv.policy <;> rfl

lemma cacheSet_updateRecency (lv : CacheLevel) (i tag : Nat) (j : Nat) :
    cacheSet (lv.updateRecency i tag) j =
      if j = i ∧ i < lv.cache.length then
        (match lv.policy with
         | .LRU => (cacheSet lv i).erase tag ++ [tag]
         | .MRU => tag :: (cacheSet lv i).erase tag
         | .FIFO => cacheSet lv i)
      else cacheSet lv j := by
  unfold CacheLevel.updateRecency
  cases lv.policy
  · simp only []
    by_cases h : j = i ∧ i < lv.cache.length <;> simp [h]
  · simp only [cacheSet]
    exact getD_after_set _ _ _ _ _
  · simp only [cacheSet]
    exact getD_after_set _ _ _ _ _

@[simp] lemma eraseBlock_associativity (lv : CacheLevel) (i t : Nat) :
    (lv.eraseBlock i t).associativity = lv.associativity := rfl
@[simp] lemma eraseBlock_numSets (lv : CacheLevel) (i t : Nat) :
    (lv.eraseBlock i t).numSets = lv.numSets := rfl
@[simp] lemma eraseBlock_indexBits (lv : CacheLevel) (i t : Nat) :
    (lv.eraseBlock i t).indexBits = lv.indexBits := rfl
@[simp] lemma eraseBlock_offsetBits (lv : CacheLevel) (i t : Nat) :
    (lv.eraseBlock i t).offsetBits = lv.offsetBits := rfl
@[simp] lemma eraseBlock_name (lv : CacheLevel) (i t : Nat) :
    (lv.eraseBlock i t).name = lv.name := rfl
@[simp] lemma eraseBlock_cache_length (lv : CacheLevel) (i t : Nat) :
    (lv.eraseBlock i t).cache.length = lv.cache.length := by
  simp [CacheLevel.eraseBlock]
@[simp] lemma eraseBlock_meta_length (lv : CacheLevel) (i t : Nat) :
    (lv.eraseBlock i t).cacheMetadata.length = lv.cacheMetadata.length := by
  simp [CacheLevel.eraseBlock]

@[simp] lemma insertBlock_associativity (lv : CacheLevel) (i t : Nat) (d : Bool) :
    (lv.insertBlock i t d).associativity = lv.associativity := rfl
@[simp] lemma insertBlock_numSets (lv : CacheLevel) (i t : Nat) (d : Bool) :
    (lv.insertBlock i t d).numSets = lv.numSets := rfl
@[simp] lemma insertBlock_indexBits (lv : CacheLevel) (i t : Nat) (d : Bool) :
    (lv.insertBlock i t d).indexBits = lv.indexBits := rfl
@[simp] lemma insertBlock_offsetBits (lv : CacheLevel) (i t : Nat) (d : Bool) :
    (lv.insertBlock i t d).offsetBits = lv.offsetBits := rfl
@[simp] lemma insertBlock_name (lv : CacheLevel) (i t : Nat) (d : Bool) :
    (lv.insertBlock i t d).name = lv.name := rfl
@[simp] lemma insertBlock_cache_length (lv : CacheLevel) (i t : Nat) (d : Bool) :
    (lv.insertBlock i t d).cache.length = lv.cache.length := by
  simp [CacheLevel.insertBlock]
@[simp] lemma insertBlock_meta_length (lv : CacheLevel) (i t : Nat) (d : Bool) :
    (lv.insertBlock i t d).cacheMetadata.length = lv.cacheMetadata.length := by
  simp [CacheLevel.insertBlock]

@[simp] lemma setDirty_associativity (lv : CacheLevel) (i t : Nat) (v : Bool) :
    (lv.setDirty i t v).associativity = lv.associativity := rfl
@[simp] lemma setDirty_numSets (lv : CacheLevel) (i t : Nat) (v : Bool) :
    (lv.setDirty i t v).numSets = lv.numSets := rfl
@[simp] lemma setDirty_indexBits (lv : CacheLevel) (i t : Nat) (v : Bool) :
    (lv.setDirty i t v).indexBits = lv.indexBits := rfl
@[simp] lemma setDirty_offsetBits (lv : CacheLevel) (i t : Nat) (v : Bool) :
    (lv.setDirty i t v).offsetBits = lv.offsetBits := rfl
@[simp] lemma setDirty_name (lv : CacheLevel) (i t : Nat) (v : Bool) :
    (lv.setDirty i t v).name = lv.name := rfl
@[simp] lemma setDirty_cache_length (lv : CacheLevel) (i t : Nat) (v : Bool) :
    (lv.setDirty i t v).cache.length = lv.cache.length := rfl
@[simp] lemma setDirty_meta_length (lv : CacheLevel) (i t : Nat) (v : Bool) :
    (lv.setDirty i t v).cacheMetadata.length = lv.cacheMetadata.length := by
  simp [CacheLevel.setDirty]

@[simp] lemma updateRecency_associativity (lv : CacheLevel) (i t : Nat) :
    (lv.updateRecency i t).associativity = lv.associativity := by
  unfold CacheLevel.updateRecency; cases lv.policy <;> rfl
@[simp] lemma updateRecency_numSets (lv : CacheLevel) (i t : Nat) :
    (lv.updateRecency i t).numSets = lv.numSets := by
  unfold CacheLevel.updateRecency; cases lv.policy <;> rfl
@[simp] lemma updateRecency_indexBits (lv : CacheLevel) (i t : Nat) :
    (lv.updateRecency i t).indexBits = lv.indexBits := by
  unfold CacheLevel.updateRecency; cases lv.policy <;> rfl
@[simp] lemma updateRecency_offsetBits (lv : CacheLevel) (i t : Nat) :
    (lv.updateRecency i t).offsetBits = lv.offsetBits := by
  unfold CacheLevel.updateRecency; cases lv.policy <;> rfl
@[simp] lemma updateRecency_name (lv : CacheLevel) (i t : Nat) :
    (lv.updateRecency i t).name = lv.name := by
  unfold CacheLevel.updateRecency; cases lv.policy <;> rfl
@[simp] lemma updateRecency_cache_length (lv : CacheLevel) (i t : Nat) :
    (lv.updateRecency i t).cache.length = lv.cache.length := by
  unfold CacheLevel.updateRecency; cases lv.policy <;> simp
@[simp] lemma updateRecency_meta_length (lv : CacheLevel) (i t : Nat) :
    (lv.updateRecency i t).cacheMetadata.length = lv.cacheMetadata.length := by
  unfold CacheLevel.updateRecency; cases lv.policy <;> rfl

lemma LevelInv_eraseBlock (lv : CacheLevel) (i tag : Nat) (h : LevelInv lv) :
    LevelInv (lv.eraseBlock i tag) := by
  obtain ⟨⟨hns, hcl, hml, hassoc⟩, hcap, hnd, hsync⟩ := h
  refine ⟨⟨by simp [hns], by simp [hcl], by simp [hml], by simp [hassoc]⟩, ?_, ?_, ?_⟩
  · intro j
    rw [cacheSet_eraseBlock]
    simp only [eraseBlock_associativity]
    split
    · exact le_trans (List.Sublist.length_le (List.erase_sublist _ _)) (hcap i)
    · exact hcap j
  · intro j
    rw [cacheSet_eraseBlock]
    split
    · exact (hnd i).erase tag
    · exact hnd j
  · intro j t
    rw [cacheSet_eraseBlock, metaDict_eraseBlock]
    by_cases hj : j = i ∧ i < lv.numSets
    · rw [if_pos (by rw [hcl]; exact hj), if_pos (by rw [hml]; exact hj)]
      rw [mem_keys_dictErase, (hnd i).mem_erase_iff]
      rw [hsync i t]
      tauto
    · rw [if_neg (by rw [hcl]; exact hj), if_neg (by rw [hml]; exact hj)]
      exact hsync j t

lemma LevelInv_insertBlock (lv : CacheLevel) (i tag : Nat) (d : Bool) (h : LevelInv lv)
    (hnew : tag ∉ cacheSet lv i) (hroom : (cacheSet lv i).length < lv.associativity) :
    LevelInv (lv.insertBlock i tag d) := by
  obtain ⟨⟨hns, hcl, hml, hassoc⟩, hcap, hnd, hsync⟩ := h
  refine ⟨⟨by simp [hns], by simp [hcl], by simp [hml], by simp [hassoc]⟩, ?_, ?_, ?_⟩
  · intro j
    rw [cacheSet_insertBlock]
    simp only [insertBlock_associativity]
    split
    · simp only [List.length_append, List.length_cons, List.length_nil]
      omega
    · exact hcap j
  · intro j
    rw [cacheSet_insertBlock]
    split
    · exact List.Nodup.append (hnd i) (List.nodup_singleton tag)
        (by simpa [List.disjoint_singleton] using hnew)
    · exact hnd j
  · intro j t
    rw [cacheSet_insertBlock, metaDict_insertBlock]
    by_cases hj : j = i ∧ i < lv.numSets
    · rw [if_pos (by rw [hcl]; exact hj), if_pos (by rw [hml]; exact hj)]
      rw [mem_keys_dictInsert]
      simp only [List.mem_append, List.mem_singleton]
      rw [hsync i t]
    · rw [if_neg (by rw [hcl]; exact hj), if_neg (by rw [hml]; exact hj)]
      exact hsync j t

lemma LevelInv_setDirty (lv : CacheLevel) (i tag : Nat) (v : Bool) (h : LevelInv lv)
    (hmem : tag ∈ cacheSet lv i) : LevelInv (lv.setDirty i tag v) := by
  obtain ⟨⟨hns, hcl, hml, hassoc⟩, hcap, hnd, hsync⟩ := h
  refine ⟨⟨by simp [hns], by simp [hcl], by simp [hml], by simp [hassoc]⟩, ?_, ?_, ?_⟩
  · intro j
    rw [cacheSet_setDirty]
    simp only [setDirty_associativity]
    exact hcap j
  · intro j
    rw [cacheSet_setDirty]
    exact hnd j
  · intro j t
    rw [cacheSet_setDirty, metaDict_setDirty]
    by_cases hj : j = i ∧ i < lv.numSets
    · rw [if_pos (by rw [hml]; exact hj)]
      rw [mem_keys_dictInsert]
      obtain ⟨rfl, _⟩ := hj
      rw [hsync j t]
      constructor
      · exact Or.inl
      · rintro (ht | rfl)
        · exact ht
        · exact (hsync j t).mp hmem
    · rw [if_neg (by rw [hml]; exact hj)]
      exact hsync j t

lemma LevelInv_updateRecency (lv : CacheLevel) (i tag : Nat) (h : LevelInv lv)
    (hmem : tag ∈ cacheSet lv i) : LevelInv (lv.updateRecency i tag) := by
  obtain ⟨⟨hns, hcl, hml, hassoc⟩, hcap, hnd, hsync⟩ := h
  have hpos : 0 < (cacheSet lv i).length := List.length_pos_of_mem hmem
  have hti : tag ∉ (cacheSet lv i).erase tag := by
    intro hc
    exact (((hnd i).mem_erase_iff).mp hc).1 rfl
  have hlen : ∀ pol : Policy,
      (match pol with
       | .LRU => (cacheSet lv i).erase tag ++ [tag]
       | .MRU => tag :: (cacheSet lv i).erase tag
       | .FIFO => cacheSet lv i).length = (cacheSet lv i).length := by
    intro pol
    cases pol
    · rfl
    · simp only [List.length_append, List.length_cons, List.length_nil,
        List.length_erase_of_mem hmem]
      omega
    · simp only [List.length_cons, List.length_erase_of_mem hmem]
      omega
  have hnd2 : ∀ pol : Policy,
      (match pol with
       | .LRU => (cacheSet lv i).erase tag ++ [tag]
       | .MRU => tag :: (cacheSet lv i).erase tag
       | .FIFO => cacheSet lv i).Nodup := by
    intro pol
    cases pol
    · exact hnd i
    · exact List.Nodup.append ((hnd i).erase tag) (List.nodup_singleton tag)
        (by simpa [List.disjoint_singleton] using hti)
    · exact List.nodup_cons.mpr ⟨hti, (hnd i).erase tag⟩
  have hmem2 : ∀ (pol : Policy) (t : Nat),
      (t ∈ (match pol with
       | .LRU => (cacheSet lv i).erase tag ++ [tag]
       | .MRU => tag :: (cacheSet lv i).erase tag
       | .FIFO => cacheSet lv i)) ↔ t ∈ cacheSet lv i := by
    intro pol t
    cases pol
    · rfl
    · simp only [List.mem_append, List.mem_singleton, (hnd i).mem_erase_iff]
      by_cases ht : t = tag
      · subst ht; tauto
      · tauto
    · simp only [List.mem_cons, (hnd i).mem_erase_iff]
      by_cases ht : t = tag
      · subst ht; tauto
      · tauto
  refine ⟨⟨by simp [hns], by simp [hcl], by simp [hml], by simp [hassoc]⟩, ?_, ?_, ?_⟩
  · intro j
    rw [cacheSet_updateRecency]
    simp only [updateRecency_associativity]
    split
    · rw [hlen lv.policy]
      exact hcap i
    · exact hcap j
  · intro j
    rw [cacheSet_updateRecency]
    split
    · exact hnd2 lv.policy
    · exact hnd j
  · intro j t
    rw [cacheSet_updateRecency, metaDict_updateRecency]
    split
    next hj =>
        rw [hmem2 lv.policy t]
        obtain ⟨rfl, _⟩ := hj
        exact hsync j t
    next => exact hsync j t

/-! ### Preservation of the invariants by the protocol -/

lemma access_AllInv (fuel : Nat) :
    ∀ (levels : List CacheLevel) (hasLower : Bool) (op : Op) (address : Nat),
    3 * levels.length ≤ fuel → AllInv levels →
    AllInv (run fuel levels (.access hasLower op address)).1 := by
  induction fuel using Nat.strong_induction_on with
  | _ fuel ih =>
    intro levels hasLower op address hfuel hinv
    match levels, fuel with
    | [], 0 => exact hinv
    | [], fuel + 1 => intro x hx; simp only [run] at hx; simp at hx
    | lv :: rest, fuel + 1 =>
      have hfuel' : 3 * rest.length + 3 ≤ fuel + 1 := by
        simpa [List.length_cons, Nat.mul_add] using hfuel
      have hInvLv : LevelInv lv := hinv lv (List.mem_cons_self lv rest)
      by_cases hc : lv.calcTag (lv.calcBlockAddress address) ∈
          cacheSet lv (lv.calcIndex (lv.calcBlockAddress address))
      · rw [run_access_hit fuel lv rest hasLower op address hc]
        intro x hx
        rcases List.mem_cons.mp hx with rfl | hx
        · have hInv2 : LevelInv (if op == "W" then
              lv.setDirty (lv.calcIndex (lv.calcBlockAddress address))
                (lv.calcTag (lv.calcBlockAddress address)) true else lv) := by
            split
            · exact LevelInv_setDirty lv _ _ true hInvLv hc
            · exact hInvLv
          have hmem2 : lv.calcTag (lv.calcBlockAddress address) ∈
              cacheSet (if op == "W" then
                lv.setDirty (lv.calcIndex (lv.calcBlockAddress address))
                  (lv.calcTag (lv.calcBlockAddress address)) true else lv)
                (lv.calcIndex (lv.calcBlockAddress address)) := by
            split
            · rw [cacheSet_setDirty]
              exact hc
            · exact hc
          exact LevelInv_updateRecency _ _ _ hInv2 hmem2
        · exact hinv x (List.mem_cons_of_mem _ hx)
      · by_cases hfull : lv.associativity
            ≤ (cacheSet lv (lv.calcIndex (lv.calcBlockAddress address))).length
        · -- the set is full: evict runs, then the fetch, then the insert
          obtain ⟨⟨hns, hcl, hml, hassoc⟩, hcap, hnd, hsync⟩ := hInvLv
          have hlen_pos : 0 < (cacheSet lv (lv.calcIndex (lv.calcBlockAddress address))).length :=
            lt_of_lt_of_le hassoc hfull
          obtain ⟨t, ts, hs⟩ : ∃ t ts,
              cacheSet lv (lv.calcIndex (lv.calcBlockAddress address)) = t :: ts := by
            cases hsx : cacheSet lv (lv.calcIndex (lv.calcBlockAddress address)) with
            | nil => rw [hsx] at hlen_pos; simp at hlen_pos
            | cons a b => exact ⟨a, b, rfl⟩
          obtain ⟨g, rfl⟩ : ∃ g, fuel = g + 2 := ⟨fuel - 2, by omega⟩
          have hvmem : victimOf lv.policy t ts
              ∈ cacheSet lv (lv.calcIndex (lv.calcBlockAddress address)) := by
            rw [hs]
            unfold victimOf
            cases lv.policy
            · exact List.mem_cons_self t ts
            · exact List.mem_cons_self t ts
            · exact List.getLast_mem _
          have hidxlt : lv.calcIndex (lv.calcBlockAddress address) < 2 ^ lv.indexBits := by
            rw [← hns]
            exact calcIndex_lt lv _ hns
          have hvtag : lv.calcTag (lv.calcBlockAddressFromTagIndex (victimOf lv.policy t ts)
              (lv.calcIndex (lv.calcBlockAddress address))) = victimOf lv.policy t ts :=
            roundtrip_tag lv _ _ hidxlt
          have hvidx : lv.calcIndex (lv.calcBlockAddressFromTagIndex (victimOf lv.policy t ts)
              (lv.calcIndex (lv.calcBlockAddress address)))
              = lv.calcIndex (lv.calcBlockAddress address) :=
            roundtrip_index lv _ _ hns hidxlt
          have hres : lv.calcTag (lv.calcBlockAddressFromTagIndex (victimOf lv.policy t ts)
              (lv.calcIndex (lv.calcBlockAddress address)))
              ∈ cacheSet lv (lv.calcIndex (lv.calcBlockAddressFromTagIndex (victimOf lv.policy t ts)
                (lv.calcIndex (lv.calcBlockAddress address)))) := by
            rw [hvtag, hvidx]
            exact hvmem
          have hinvd := run_invalidate_resident g lv rest
            (lv.calcBlockAddressFromTagIndex (victimOf lv.policy t ts)
              (lv.calcIndex (lv.calcBlockAddress address))) hres
          rw [hvtag, hvidx] at hinvd
          have hev := run_evict_cons (g + 1) lv rest
            (lv.calcIndex (lv.calcBlockAddress address)) t ts hs
          have hInvLv' : LevelInv lv := ⟨⟨hns, hcl, hml, hassoc⟩, hcap, hnd, hsync⟩
          have hInvErase : LevelInv (lv.eraseBlock (lv.calcIndex (lv.calcBlockAddress address))
              (victimOf lv.policy t ts)) := LevelInv_eraseBlock lv _ _ hInvLv'
          have hidxcache : lv.calcIndex (lv.calcBlockAddress address) < lv.cache.length := by
            rw [hcl, hns]
            exact hidxlt
          have hsetErase : cacheSet (lv.eraseBlock (lv.calcIndex (lv.calcBlockAddress address))
              (victimOf lv.policy t ts)) (lv.calcIndex (lv.calcBlockAddress address))
              = (cacheSet lv (lv.calcIndex (lv.calcBlockAddress address))).erase
                  (victimOf lv.policy t ts) := by
            rw [cacheSet_eraseBlock, if_pos ⟨rfl, hidxcache⟩]
          have hnew : lv.calcTag (lv.calcBlockAddress address)
              ∉ cacheSet (lv.eraseBlock (lv.calcIndex (lv.calcBlockAddress address))
                (victimOf lv.policy t ts)) (lv.calcIndex (lv.calcBlockAddress address)) := by
            rw [hsetErase]
            intro hmem
            exact hc ((List.erase_sublist _ _).mem hmem)
          have hroom : (cacheSet (lv.eraseBlock (lv.calcIndex (lv.calcBlockAddress address))
              (victimOf lv.policy t ts)) (lv.calcIndex (lv.calcBlockAddress address))).length
              < (lv.eraseBlock (lv.calcIndex (lv.calcBlockAddress address))
                (victimOf lv.policy t ts)).associativity := by
            rw [hsetErase, eraseBlock_associativity, List.length_erase_of_mem hvmem]
            have := hcap (lv.calcIndex (lv.calcBlockAddress address))
            omega
          by_cases hdirty : (dictLookup (metaDict lv (lv.calcIndex (lv.calcBlockAddress address)))
              (victimOf lv.policy t ts)).getD false = true
          · rw [if_pos hdirty, if_pos hdirty] at hinvd
            have heq : run (g + 2) (lv :: rest)
                (.evict (lv.calcIndex (lv.calcBlockAddress address)))
                = (lv.eraseBlock (lv.calcIndex (lv.calcBlockAddress address))
                    (victimOf lv.policy t ts)
                  :: (run g rest (.access true "W"
                      (lv.calcBlockAddressFromTagIndex (victimOf lv.policy t ts)
                        (lv.calcIndex (lv.calcBlockAddress address))))).1,
                  (Event.writeback lv.name (lv.calcBlockAddressFromTagIndex (victimOf lv.policy t ts)
                      (lv.calcIndex (lv.calcBlockAddress address)))
                    :: (run g rest (.access true "W"
                        (lv.calcBlockAddressFromTagIndex (victimOf lv.policy t ts)
                          (lv.calcIndex (lv.calcBlockAddress address))))).2)
                    ++ [.eviction lv.name (lv.calcBlockAddressFromTagIndex (victimOf lv.policy t ts)
                        (lv.calcIndex (lv.calcBlockAddress address)))]) := by
              rw [hev, hinvd]
            rw [run_access_miss_full (g + 2) lv rest hasLower op address _ _ _ hc hfull heq]
            have hrest2inv : AllInv (run g rest (.access true "W"
                (lv.calcBlockAddressFromTagIndex (victimOf lv.policy t ts)
                  (lv.calcIndex (lv.calcBlockAddress address))))).1 :=
              ih g (by omega) rest true "W" _ (by omega)
                (fun y hy => hinv y (List.mem_cons_of_mem _ hy))
            have hrest2len : (run g rest (.access true "W"
                (lv.calcBlockAddressFromTagIndex (victimOf lv.policy t ts)
                  (lv.calcIndex (lv.calcBlockAddress address))))).1.length = rest.length :=
              run_length g rest _
            intro x hx
            rcases List.mem_cons.mp hx with rfl | hx
            · exact LevelInv_insertBlock _ _ _ _ hInvErase hnew hroom
            · have hfetched : AllInv (run (g + 2) (run g rest (.access true "W"
                  (lv.calcBlockAddressFromTagIndex (victimOf lv.policy t ts)
                    (lv.calcIndex (lv.calcBlockAddress address))))).1
                  (.access true (if hasLower then op else "R") (lv.calcBlockAddress address))).1 :=
                ih (g + 2) (by omega) _ true _ _ (by rw [hrest2len]; omega) hrest2inv
              exact hfetched x hx
          · rw [if_neg hdirty, if_neg hdirty] at hinvd
            have heq : run (g + 2) (lv :: rest)
                (.evict (lv.calcIndex (lv.calcBlockAddress address)))
                = (lv.eraseBlock (lv.calcIndex (lv.calcBlockAddress address))
                    (victimOf lv.policy t ts) :: rest,
                  [] ++ [.eviction lv.name (lv.calcBlockAddressFromTagIndex (victimOf lv.policy t ts)
                      (lv.calcIndex (lv.calcBlockAddress address)))]) := by
              rw [hev, hinvd]
            rw [run_access_miss_full (g + 2) lv rest hasLower op address _ _ _ hc hfull heq]
            intro x hx
            rcases List.mem_cons.mp hx with rfl | hx
            · exact LevelInv_insertBlock _ _ _ _ hInvErase hnew hroom
            · have hfetched : AllInv (run (g + 2) rest
                  (.access true (if hasLower then op else "R") (lv.calcBlockAddress address))).1 :=
                ih (g + 2) (by omega) rest true _ _ (by omega)
                  (fun y hy => hinv y (List.mem_cons_of_mem _ hy))
              exact hfetched x hx
        · rw [run_access_miss_notfull fuel lv rest hasLower op address hc hfull]
          intro x hx
          rcases List.mem_cons.mp hx with rfl | hx
          · exact LevelInv_insertBlock lv _ _ _ hInvLv hc (by omega)
          · have hrest : AllInv (run fuel rest
                (.access true (if hasLower then op else "R") (lv.calcBlockAddress address))).1 :=
              ih fuel (by omega) rest true _ _ (by omega)
                (fun y hy => hinv y (List.mem_cons_of_mem _ hy))
            exact hrest x hx

lemma invalidate_AllInv (fuel : Nat) (levels : List CacheLevel) (a : Nat)
    (hfuel : 3 * levels.length + 1 ≤ fuel) (hinv : AllInv levels) :
    AllInv (run fuel levels (.invalidate a)).1 := by
  match levels, fuel with
  | [], fuel + 1 => intro x hx; simp only [run] at hx; simp at hx
  | lv :: rest, fuel + 1 =>
    have hfuel' : 3 * rest.length + 3 ≤ fuel + 1 := by
      simp only [List.length_cons] at hfuel
      omega
    by_cases hc : lv.calcTag a ∈ cacheSet lv (lv.calcIndex a)
    · rw [run_invalidate_resident fuel lv rest a hc]
      intro x hx
      rcases List.mem_cons.mp hx with rfl | hx
      · exact LevelInv_eraseBlock lv _ _ (hinv lv (List.mem_cons_self lv rest))
      · by_cases hd : (dictLookup (metaDict lv (lv.calcIndex a)) (lv.calcTag a)).getD false = true
        · rw [if_pos hd] at hx
          exact access_AllInv fuel rest true "W" a (by omega)
            (fun y hy => hinv y (List.mem_cons_of_mem _ hy)) x hx
        · rw [if_neg hd] at hx
          exact hinv x (List.mem_cons_of_mem _ hx)
    · rw [run_invalidate_absent fuel lv rest a hc]
      exact hinv

lemma evict_AllInv (fuel : Nat) (levels : List CacheLevel) (cacheIndex : Nat)
    (hfuel : 3 * levels.length + 2 ≤ fuel) (hinv : AllInv levels) :
    AllInv (run fuel levels (.evict cacheIndex)).1 := by
  match levels, fuel with
  | [], fuel + 1 => intro x hx; simp only [run] at hx; simp at hx
  | lv :: rest, fuel + 1 =>
    cases hs : cacheSet lv cacheIndex with
    | nil =>
        rw [run_evict_nil fuel lv rest cacheIndex hs]
        exact hinv
    | cons t ts =>
        rw [run_evict_cons fuel lv rest cacheIndex t ts hs]
        exact invalidate_AllInv fuel (lv :: rest) _ (by simp at hfuel ⊢; omega) hinv

lemma run_AllInv (fuel : Nat) (levels : List CacheLevel) (req : Req)
    (hfuel : 3 * levels.length + 2 ≤ fuel) (hinv : AllInv levels) :
    AllInv (run fuel levels req).1 := by
  match req with
  | .access hasLower op address =>
      exact access_AllInv fuel levels hasLower op address (by omega) hinv
  | .evict cacheIndex => exact evict_AllInv fuel levels cacheIndex hfuel hinv
  | .invalidate blockAddress =>
      exact invalidate_AllInv fuel levels blockAddress (by omega) hinv

lemma accessTop_AllInv (levels : List CacheLevel) (op : Op) (address : Nat)
    (hinv : AllInv levels) : AllInv (accessTop levels op address).1 := by
  unfold accessTop
  exact access_AllInv _ levels false op address (by omega) hinv

lemma accessTop_length (levels : List CacheLevel) (op : Op) (address : Nat) :
    (accessTop levels op address).1.length = levels.length := run_length _ _ _

lemma runTrace_AllInv (trace : List (Op × Nat)) :
    ∀ (levels : List CacheLevel) (evs : List Event), AllInv levels →
    AllInv (trace.foldl (fun acc p =>
      let r := accessTop acc.1 p.1 p.2
      (r.1, acc.2 ++ r.2)) (levels, evs)).1 := by
  induction trace with
  | nil => intro levels evs hinv; exact hinv
  | cons p tr ih =>
      intro levels evs hinv
      simp only [List.foldl_cons]
      exact ih _ _ (accessTop_AllInv levels p.1 p.2 hinv)

lemma LevelInv_of_checks (lv : CacheLevel)
    (h1 : lv.numSets = 2 ^ lv.indexBits) (h2 : lv.cache.length = lv.numSets)
    (h3 : lv.cacheMetadata.length = lv.numSets) (h4 : 1 ≤ lv.associativity)
    (h5 : ∀ i < lv.numSets, (cacheSet lv i).length ≤ lv.associativity
      ∧ (cacheSet lv i).Nodup
      ∧ (∀ t ∈ cacheSet lv i, t ∈ (metaDict lv i).map Prod.fst)
      ∧ (∀ t ∈ (metaDict lv i).map Prod.fst, t ∈ cacheSet lv i)) :
    LevelInv lv := by
  have hbig : ∀ i, lv.numSets ≤ i →
      cacheSet lv i = [] ∧ metaDict lv i = [] := by
    intro i hi
    constructor
    · exact List.getD_eq_default _ _ (by omega)
    · exact List.getD_eq_default _ _ (by omega)
  refine ⟨⟨h1, h2, h3, h4⟩, ?_, ?_, ?_⟩
  · intro i
    by_cases hi : i < lv.numSets
    · exact (h5 i hi).1
    · rw [(hbig i (by omega)).1]
      simp
  · intro i
    by_cases hi : i < lv.numSets
    · exact (h5 i hi).2.1
    · rw [(hbig i (by omega)).1]
      exact List.nodup_nil
  · intro i t
    by_cases hi : i < lv.numSets
    · exact ⟨fun ht => (h5 i hi).2.2.1 t ht, fun ht => (h5 i hi).2.2.2 t ht⟩
    · rw [(hbig i (by omega)).1, (hbig i (by omega)).2]
      simp

lemma run_names (fuel : Nat) : ∀ (levels : List CacheLevel) (req : Req),
    (run fuel levels req).1.map CacheLevel.name = levels.map CacheLevel.name := by
  induction fuel with
  | zero => intro levels req; rfl
  | succ fuel ih =>
      intro levels req
      match levels, req with
      | [], _ => rfl
      | lv :: rest, .access hasLower op address =>
          by_cases hc : lv.calcTag (lv.calcBlockAddress address) ∈
              cacheSet lv (lv.calcIndex (lv.calcBlockAddress address))
          · rw [run_access_hit fuel lv rest hasLower op address hc]
            simp only [List.map_cons, updateRecency_name]
            congr 1
            split <;> rfl
          · by_cases hfull : lv.associativity
                ≤ (cacheSet lv (lv.calcIndex (lv.calcBlockAddress address))).length
            · have hlen := run_length fuel (lv :: rest)
                (.evict (lv.calcIndex (lv.calcBlockAddress address)))
              cases he : run fuel (lv :: rest)
                  (.evict (lv.calcIndex (lv.calcBlockAddress address))) with
              | mk l2 evs =>
                  cases l2 with
                  | nil => rw [he] at hlen; simp at hlen
                  | cons lv2 rest2 =>
                      rw [run_access_miss_full fuel lv rest hasLower op address
                        lv2 rest2 evs hc hfull he]
                      have hnames := ih (lv :: rest)
                        (.evict (lv.calcIndex (lv.calcBlockAddress address)))
                      rw [he] at hnames
                      simp only [List.map_cons] at hnames
                      simp only [List.map_cons, insertBlock_name]
                      rw [ih rest2 _]
                      rw [List.cons.injEq] at hnames
                      rw [hnames.1, hnames.2]
            · rw [run_access_miss_notfull fuel lv rest hasLower op address hc hfull]
              simp only [List.map_cons, insertBlock_name]
              rw [ih rest _]
      | lv :: rest, .evict cacheIndex =>
          cases hs : cacheSet lv cacheIndex with
          | nil => rw [run_evict_nil fuel lv rest cacheIndex hs]
          | cons t ts =>
              rw [run_evict_cons fuel lv rest cacheIndex t ts hs]
              exact ih (lv :: rest) _
      | lv :: rest, .invalidate blockAddress =>
          by_cases hc : lv.calcTag blockAddress ∈ cacheSet lv (lv.calcIndex blockAddress)
          · rw [run_invalidate_resident fuel lv rest blockAddress hc]
            simp only [List.map_cons, eraseBlock_name]
            congr 1
            split
            · exact ih rest _
            · rfl
          · rw [run_invalidate_absent fuel lv rest blockAddress hc]

/-- The level a notification event was reported by. -/
def eventLevel : Event → String
  | .hit l _ _ => l
  | .miss l _ _ => l
  | .writeback l _ => l
  | .eviction l _ => l

lemma run_event_levels (fuel : Nat) : ∀ (levels : List CacheLevel) (req : Req),
    ∀ e ∈ (run fuel levels req).2, eventLevel e ∈ levels.map CacheLevel.name := by
  induction fuel with
  | zero => intro levels req e he; simp [run] at he
  | succ fuel ih =>
      intro levels req
      match levels, req with
      | [], _ => intro e he; simp only [run] at he; simp at he
      | lv :: rest, .access hasLower op address =>
          by_cases hc : lv.calcTag (lv.calcBlockAddress address) ∈
              cacheSet lv (lv.calcIndex (lv.calcBlockAddress address))
          · rw [run_access_hit fuel lv rest hasLower op address hc]
            intro e he
            simp only [List.mem_singleton] at he
            subst he
            simp [eventLevel]
          · by_cases hfull : lv.associativity
                ≤ (cacheSet lv (lv.calcIndex (lv.calcBlockAddress address))).length
            · have hlen := run_length fuel (lv :: rest)
                (.evict (lv.calcIndex (lv.calcBlockAddress address)))
              cases he : run fuel (lv :: rest)
                  (.evict (lv.calcIndex (lv.calcBlockAddress address))) with
              | mk l2 evs =>
                  cases l2 with
                  | nil => rw [he] at hlen; simp at hlen
                  | cons lv2 rest2 =>
                      rw [run_access_miss_full fuel lv rest hasLower op address
                        lv2 rest2 evs hc hfull he]
                      have hnames := run_names fuel (lv :: rest)
                        (.evict (lv.calcIndex (lv.calcBlockAddress address)))
                      rw [he] at hnames
                      simp only [List.map_cons, List.cons.injEq] at hnames
                      intro e hemem
                      rcases List.mem_cons.mp hemem with rfl | hemem
                      · simp [eventLevel]
                      · rcases List.mem_append.mp hemem with h1 | h1
                        · have h2 := ih (lv :: rest)
                            (.evict (lv.calcIndex (lv.calcBlockAddress address))) e
                            (by rw [he]; exact h1)
                          exact h2
                        · have h2 := ih rest2
                            (.access true (if hasLower then op else "R")
                              (lv.calcBlockAddress address)) e h1
                          rw [hnames.2] at h2
                          simp only [List.map_cons, List.mem_cons]
                          exact Or.inr h2
            · rw [run_access_miss_notfull fuel lv rest hasLower op address hc hfull]
              intro e hemem
              rcases List.mem_cons.mp hemem with rfl | hemem
              · simp [eventLevel]
              · have h2 := ih rest
                  (.access true (if hasLower then op else "R") (lv.calcBlockAddress address)) e hemem
                simp only [List.map_cons, List.mem_cons]
                exact Or.inr h2
      | lv :: rest, .evict cacheIndex =>
          cases hs : cacheSet lv cacheIndex with
          | nil =>
              rw [run_evict_nil fuel lv rest cacheIndex hs]
              intro e he
              simp at he
          | cons t ts =>
              rw [run_evict_cons fuel lv rest cacheIndex t ts hs]
              exact ih (lv :: rest) _
      | lv :: rest, .invalidate blockAddress =>
          by_cases hc : lv.calcTag blockAddress ∈ cacheSet lv (lv.calcIndex blockAddress)
          · rw [run_invalidate_resident fuel lv rest blockAddress hc]
            intro e he
            rcases List.mem_append.mp he with h1 | h1
            · by_cases hd : (dictLookup (metaDict lv (lv.calcIndex blockAddress))
                  (lv.calcTag blockAddress)).getD false = true
              · rw [if_pos hd] at h1
                rcases List.mem_cons.mp h1 with rfl | h1
                · simp [eventLevel]
                · have h2 := ih rest (.access true "W" blockAddress) e h1
                  simp only [List.map_cons, List.mem_cons]
                  exact Or.inr h2
              · rw [if_neg hd] at h1
                simp at h1
            · simp only [List.mem_singleton] at h1
              subst h1
              simp [eventLevel]
          · rw [run_invalidate_absent fuel lv rest blockAddress hc]
            intro e he
            simp at he

/-! ### Concrete levels used by witnesses and counterexamples.
Geometries follow the constructor: `sampleL1` is `CacheLevel(64, 16, 1, LRU)`
(4 sets), `sampleL2` is `CacheLevel(128, 16, 2, LRU)` (4 sets), `sampleL2small`
is `CacheLevel(16, 16, 1, LRU)` (1 set), `sampleL3` mirrors `sampleL2`, and
`sampleMRU` is `CacheLevel(192, 16, 3, MRU)` (4 sets). -/

def sampleL1 : CacheLevel :=
  { name := "L1", cacheSize := 64, blockSize := 16, associativity := 1, policy := .LRU,
    writePolicy := "WB", numSets := 4, offsetBits := 4, indexBits := 2,
    cache := [[], [], [], []], cacheMetadata := [[], [], [], []] }

def sampleL2 : CacheLevel :=
  { name := "L2", cacheSize := 128, blockSize := 16, associativity := 2, policy := .LRU,
    writePolicy := "WB", numSets := 4, offsetBits := 4, indexBits := 2,
    cache := [[], [], [], []], cacheMetadata := [[], [], [], []] }

def sampleL2small : CacheLevel :=
  { name := "L2", cacheSize := 16, blockSize := 16, associativity := 1, policy := .LRU,
    writePolicy := "WB", numSets := 1, offsetBits := 4, indexBits := 0,
    cache := [[]], cacheMetadata := [[]] }

def sampleL3 : CacheLevel :=
  { name := "L3", cacheSize := 128, blockSize := 16, associativity := 2, policy := .LRU,
    writePolicy := "WB", numSets := 4, offsetBits := 4, indexBits := 2,
    cache := [[], [], [], []], cacheMetadata := [[], [], [], []] }

def sampleMRU : CacheLevel :=
  { name := "L1", cacheSize := 192, blockSize := 16, associativity := 3, policy := .MRU,
    writePolicy := "WB", numSets := 4, offsetBits := 4, indexBits := 2,
    cache := [[], [], [], []], cacheMetadata := [[], [], [], []] }

lemma LevelInv_sampleL1 : LevelInv sampleL1 :=
  LevelInv_of_checks sampleL1 (by decide) (by decide) (by decide) (by decide) (by decide)

lemma LevelInv_sampleL2 : LevelInv sampleL2 :=
  LevelInv_of_checks sampleL2 (by decide) (by decide) (by decide) (by decide) (by decide)

/-! ### The claims -/

/-- C7: for every block-aligned address `A` (with `block_size` and `num_sets`
powers of two), recomposing the decomposed parts gives back `A`:
`_calculate_block_address_from_tag_index(_calculate_tag(A), _calculate_index(A)) == A`. -/
theorem c7_decomposition_roundtrip (lv : CacheLevel) (A : Nat)
    (hbs : lv.blockSize = 2 ^ lv.offsetBits) (hns : lv.numSets = 2 ^ lv.indexBits)
    (halign : A % lv.blockSize = 0) :
    lv.calcBlockAddressFromTagIndex (lv.calcTag A) (lv.calcIndex A) = A := by
  obtain ⟨c, hc⟩ : ∃ c, A = 2 ^ lv.offsetBits * c := by
    refine ⟨A / lv.blockSize, ?_⟩
    rw [← hbs]
    exact (Nat.mul_div_cancel' (Nat.dvd_of_mod_eq_zero halign)).symm
  have hidxval : lv.calcIndex A = c % 2 ^ lv.indexBits := by
    unfold CacheLevel.calcIndex
    rw [hns, Nat.shiftRight_eq_div_pow, Nat.and_pow_two_sub_one_eq_mod, hc,
      Nat.mul_div_cancel_left c (Nat.two_pow_pos _)]
  have htagval : lv.calcTag A = c / 2 ^ lv.indexBits := by
    unfold CacheLevel.calcTag
    rw [Nat.shiftRight_eq_div_pow, hc, pow_add, mul_comm (2 ^ lv.indexBits),
      ← Nat.div_div_eq_div_mul, Nat.mul_div_cancel_left c (Nat.two_pow_pos _)]
  rw [htagval, hidxval,
    recompose_eq_add lv _ _ (Nat.mod_lt _ (Nat.two_pow_pos _))]
  have h2 : c / 2 ^ lv.indexBits * 2 ^ (lv.indexBits + lv.offsetBits)
      + c % 2 ^ lv.indexBits * 2 ^ lv.offsetBits
      = (c / 2 ^ lv.indexBits * 2 ^ lv.indexBits + c % 2 ^ lv.indexBits) * 2 ^ lv.offsetBits := by
    rw [pow_add]
    ring
  rw [h2, Nat.div_add_mod', hc, mul_comm]

/-- C7 witness: the round-trip evaluated on `sampleL1` (block size 16, 4
sets) at the block-aligned address 0x1230. -/
theorem c7_decomposition_roundtrip_witness :
    sampleL1.blockSize = 2 ^ sampleL1.offsetBits ∧ sampleL1.numSets = 2 ^ sampleL1.indexBits
    ∧ 4656 % sampleL1.blockSize = 0
    ∧ sampleL1.calcBlockAddressFromTagIndex (sampleL1.calcTag 4656) (sampleL1.calcIndex 4656)
      = 4656 :=
  ⟨by decide, by decide, by decide,
    c7_decomposition_roundtrip sampleL1 4656 (by decide) (by decide) (by decide)⟩

/-- C8 counterexample: the constructor performs no validation at all.
`CacheLevel(size=48, block_size=3, associativity=1)` has a non-power-of-two
block size, `CacheLevel(size=50, block_size=3, associativity=1)` moreover has
`50 % 3 != 0`, and `CacheLevel(size=2, block_size=16, associativity=1)`
yields zero sets; the claim says each must fail with `ConfigurationError`,
but all three constructions succeed (the division is floor division). -/
theorem c8_counterexample :
    (CacheLevel.init 48 3 1 Policy.LRU "WB" "L1").toOption.isSome = true
    ∧ (CacheLevel.init 48 3 1 Policy.LRU "WB" "L1").toOption.map CacheLevel.numSets = some 16
    ∧ (CacheLevel.init 50 3 1 Policy.LRU "WB" "L1").toOption.isSome = true
    ∧ (CacheLevel.init 50 3 1 Policy.LRU "WB" "L1").toOption.map CacheLevel.numSets = some 16
    ∧ (CacheLevel.init 2 16 1 Policy.LRU "WB" "L1").toOption.isSome = true
    ∧ (CacheLevel.init 2 16 1 Policy.LRU "WB" "L1").toOption.map CacheLevel.numSets = some 0 :=
  ⟨rfl, rfl, rfl, rfl, rfl, rfl⟩

/-- C8 amended: construction never raises a configuration error; whenever
`block_size * associativity` is non-zero (the only way Python's
`size // (block_size * associativity)` can fail, with `ZeroDivisionError`),
the constructor succeeds and stores `num_sets = size / (block_size *
associativity)` with no power-of-two or divisibility validation. -/
theorem c8_amended_no_validation (size blockSize associativity : Nat) (policy : Policy)
    (writePolicy levelName : String) (h : blockSize * associativity ≠ 0) :
    ∃ lv, CacheLevel.init size blockSize associativity policy writePolicy levelName
        = Except.ok lv
      ∧ lv.numSets = size / (blockSize * associativity) := by
  unfold CacheLevel.init
  rw [if_neg h]
  exact ⟨_, rfl, rfl⟩

/-- C8 amended witness: the non-power-of-two geometry (48, 3, 1) constructs
successfully with 16 sets. -/
theorem c8_amended_no_validation_witness :
    ∃ lv, CacheLevel.init 48 3 1 Policy.LRU "WB" "L1" = Except.ok lv
      ∧ lv.numSets = 48 / (3 * 1) :=
  c8_amended_no_validation 48 3 1 Policy.LRU "WB" "L1" (by decide)

/-- C9 counterexample: `access` never checks the operation code.  The bogus
operation `"X"` on a fresh level raises nothing and mutates the level: the
block is allocated (a miss is reported, the tag is inserted into the set and
into the metadata with a clean dirty bit), contradicting both the claimed
`ProtocolError` and the claimed absence of mutation. -/
theorem c9_counterexample :
    (accessTop [sampleL1] "X" 0).2 = [Event.miss "L1" "X" 0]
    ∧ (accessTop [sampleL1] "X" 0).1.map (fun lv => lv.cache) = [[[0], [], [], []]]
    ∧ (accessTop [sampleL1] "X" 0).1.map (fun lv => lv.cacheMetadata)
      = [[[(0, false)], [], [], []]]
    ∧ sampleL1.cache = [[], [], [], []] := by
  refine ⟨by decide, by decide, by decide, by decide⟩

/-- C9 amended: `access` accepts every operation code; any operation other
than `"W"` drives the level states exactly as a Read does (only the operation
string recorded in the hit/miss events differs), with no error path. -/
theorem c9_amended_any_op (fuel : Nat) (levels : List CacheLevel) (op : Op) (address : Nat)
    (h : op ≠ "W") :
    (run fuel levels (.access false op address)).1
      = (run fuel levels (.access false "R" address)).1 := by
  have hb : (op == "W") = false := beq_eq_false_iff_ne.mpr h
  match fuel, levels with
  | 0, levels => rfl
  | fuel + 1, [] => rfl
  | fuel + 1, lv :: rest =>
      by_cases hc : lv.calcTag (lv.calcBlockAddress address) ∈
          cacheSet lv (lv.calcIndex (lv.calcBlockAddress address))
      · rw [run_access_hit fuel lv rest false op address hc,
          run_access_hit fuel lv rest false "R" address hc]
        rw [if_neg (by simp [hb]), if_neg (by decide)]
      · by_cases hfull : lv.associativity
            ≤ (cacheSet lv (lv.calcIndex (lv.calcBlockAddress address))).length
        · have hlen := run_length fuel (lv :: rest)
            (.evict (lv.calcIndex (lv.calcBlockAddress address)))
          cases he : run fuel (lv :: rest)
              (.evict (lv.calcIndex (lv.calcBlockAddress address))) with
          | mk l2 evs =>
              cases l2 with
              | nil => rw [he] at hlen; simp at hlen
              | cons lv2 rest2 =>
                  rw [run_access_miss_full fuel lv rest false op address
                      lv2 rest2 evs hc hfull he,
                    run_access_miss_full fuel lv rest false "R" address
                      lv2 rest2 evs hc hfull he]
                  rw [hb]
                  rfl
        · rw [run_access_miss_notfull fuel lv rest false op address hc hfull,
            run_access_miss_notfull fuel lv rest false "R" address hc hfull]
          rw [hb]
          rfl

/-- C9 amended witness: the bogus operation `"X"` leaves the same states as a
Read at address 0 on a two-level hierarchy. -/
theorem c9_amended_any_op_witness :
    "X" ≠ "W"
    ∧ (run 9 [sampleL1, sampleL2] (.access false "X" 0)).1
      = (run 9 [sampleL1, sampleL2] (.access false "R" 0)).1 :=
  ⟨by decide, c9_amended_any_op 9 [sampleL1, sampleL2] "X" 0 (by decide)⟩

lemma run_nil_levels (fuel : Nat) (req : Req) : run fuel ([] : List CacheLevel) req = ([], []) := by
  cases fuel <;> rfl

/-- C6: under MRU the code contradicts its own comments.  On `sampleMRU`
(associativity 3, one set per the addresses used) the trace R 64, R 128,
R 192 populates set 0 with tags 1, 2, 3; the hit on 128 then touches tag 2
(the most recently accessed block), and the miss on 256 forces an eviction.
The code evicts block 192 (tag 3) because `_update_recency` moves an
MRU-touched tag to the front while `evict` takes the victim from the back,
so the most-recently-accessed block 128 survives — the claim (and the
code's own `# Most recently used block` comment) require block 128 (tag 2)
to be the victim. -/
theorem c6_mru_behavior :
    (runTrace [sampleMRU] [("R", 64), ("R", 128), ("R", 192), ("R", 128), ("R", 256)]).2
      = [Event.miss "L1" "R" 64, Event.miss "L1" "R" 128, Event.miss "L1" "R" 192,
         Event.hit "L1" "R" 128, Event.miss "L1" "R" 256, Event.eviction "L1" 192]
    ∧ (runTrace [sampleMRU] [("R", 64), ("R", 128), ("R", 192), ("R", 128), ("R", 256)]).1.map
        (fun lv => (lv.hasBlock 128, lv.hasBlock 192)) = [(true, false)] := by
  exact ⟨by decide, by decide⟩

/-- C1 counterexample: a two-level hierarchy (requester-side `sampleL1`,
backing-side `sampleL2`) reads address 0, making block 0 resident at both
levels; `evict(0)` at the backing-side level then removes the victim block 0
there (the eviction event fires and the block is gone), yet the block is
still resident at the requester-side level — `evict` never invalidates at
`requester_side` (the code's `evict`/`invalidate` never touch
`lower_level`), so the claimed inclusion property fails. -/
theorem c1_counterexample :
    (accessTop [sampleL1, sampleL2] "R" 0).1.map (fun lv => lv.hasBlock 0) = [true, true]
    ∧ (run 6 ((accessTop [sampleL1, sampleL2] "R" 0).1.drop 1) (.evict 0)).2
      = [Event.eviction "L2" 0]
    ∧ (run 6 ((accessTop [sampleL1, sampleL2] "R" 0).1.drop 1) (.evict 0)).1.map
        (fun lv => lv.hasBlock 0) = [false]
    ∧ ((accessTop [sampleL1, sampleL2] "R" 0).1.map (fun lv => lv.hasBlock 0)).head? = some true := by
  exact ⟨by decide, by decide, by decide, by decide⟩

/-- C1 amended: `evict(set_index)` removes the selected victim from this
level only (via `invalidate`, which may write dirty data back toward
`backing_side`); it performs no invalidation at `requester_side` — the
requester-side level is not even an input of the eviction, and every event
fired names this level or a backing-side level. -/
theorem c1_amended_evict_local (fuel : Nat) (lv : CacheLevel) (rest : List CacheLevel)
    (cacheIndex t : Nat) (ts : List Nat)
    (hs : cacheSet lv cacheIndex = t :: ts)
    (hns : lv.numSets = 2 ^ lv.indexBits) (hcl : lv.cache.length = lv.numSets)
    (hidx : cacheIndex < lv.numSets) (hnd : (cacheSet lv cacheIndex).Nodup) :
    ∃ lv2 rest2 evs, run (fuel + 2) (lv :: rest) (.evict cacheIndex) = (lv2 :: rest2, evs)
      ∧ victimOf lv.policy t ts ∉ cacheSet lv2 cacheIndex
      ∧ ∀ e ∈ evs, eventLevel e ∈ (lv :: rest).map CacheLevel.name := by
  have hidxlt : cacheIndex < 2 ^ lv.indexBits := by rw [← hns]; exact hidx
  have hvtag := roundtrip_tag lv (victimOf lv.policy t ts) cacheIndex hidxlt
  have hvidx := roundtrip_index lv (victimOf lv.policy t ts) cacheIndex hns hidxlt
  have hvmem : victimOf lv.policy t ts ∈ cacheSet lv cacheIndex := by
    rw [hs]
    unfold victimOf
    cases lv.policy
    · exact List.mem_cons_self t ts
    · exact List.mem_cons_self t ts
    · exact List.getLast_mem _
  have hres : lv.calcTag (lv.calcBlockAddressFromTagIndex (victimOf lv.policy t ts) cacheIndex)
      ∈ cacheSet lv (lv.calcIndex
        (lv.calcBlockAddressFromTagIndex (victimOf lv.policy t ts) cacheIndex)) := by
    rw [hvtag, hvidx]
    exact hvmem
  have hinvd := run_invalidate_resident fuel lv rest
    (lv.calcBlockAddressFromTagIndex (victimOf lv.policy t ts) cacheIndex) hres
  rw [hvtag, hvidx] at hinvd
  have hev := run_evict_cons (fuel + 1) lv rest cacheIndex t ts hs
  rw [hinvd] at hev
  refine ⟨_, _, _, hev, ?_, ?_⟩
  · rw [cacheSet_eraseBlock, if_pos ⟨rfl, by omega⟩]
    intro hmem
    exact (hnd.mem_erase_iff.mp hmem).1 rfl
  · intro e he
    have h2 := run_event_levels (fuel + 2) (lv :: rest) (.evict cacheIndex) e (by rw [hev]; exact he)
    exact h2

/-- C1 amended witness: on the populated backing-side level of the
`c1_counterexample` scenario, eviction of set 0 removes its victim. -/
theorem c1_amended_evict_local_witness :
    ∃ lv2 rest2 evs,
      run 6 [(accessTop [sampleL1, sampleL2] "R" 0).1.getD 1 sampleL2] (.evict 0)
        = (lv2 :: rest2, evs)
      ∧ victimOf ((accessTop [sampleL1, sampleL2] "R" 0).1.getD 1 sampleL2).policy 0 []
          ∉ cacheSet lv2 0
      ∧ ∀ e ∈ evs, eventLevel e
          ∈ ([(accessTop [sampleL1, sampleL2] "R" 0).1.getD 1 sampleL2].map CacheLevel.name) :=
  c1_amended_evict_local 4 ((accessTop [sampleL1, sampleL2] "R" 0).1.getD 1 sampleL2) []
    0 0 [] (by decide) (by decide) (by decide) (by decide) (by decide)

/-- C3 counterexample: a fully reachable three-level replay in which an
intermediate level issues a Write, not a Read, to its backing side.  With
`sampleL2small` (one set) between `sampleL1` and `sampleL3`, the trace
W 0, R 16, R 256 makes L1 evict its dirty block 0 while L2 no longer holds
it; the resulting write-back `access('W', 0)` misses at L2, and because L2
has a requester-side neighbor the miss cascade forwards the original
operation: L3 records a Write hit at address 0 (`Event.hit "L3" "W" 0`),
refuting "the operation issued to that neighbor is always a Read". -/
theorem c3_counterexample :
    Event.miss "L2" "W" 0
      ∈ (runTrace [sampleL1, sampleL2small, sampleL3] [("W", 0), ("R", 16), ("R", 256)]).2
    ∧ Event.hit "L3" "W" 0
      ∈ (runTrace [sampleL1, sampleL2small, sampleL3] [("W", 0), ("R", 16), ("R", 256)]).2 := by
  exact ⟨by decide, by decide⟩

/-- C3 amended: on a miss the operation forwarded to `backing_side` is the
original operation whenever the level has a requester-side neighbor, and
`'R'` only when it has none (`prop_operation = operation if self.lower_level
else 'R'`): when the backing level also misses with room to spare, its newly
allocated entry is dirty exactly when the head has a requester side and the
original operation is a Write. -/
theorem c3_amended_forwarded_op (fuel : Nat) (lv l2 : CacheLevel) (hasLower : Bool)
    (op : Op) (address : Nat)
    (hmiss1 : lv.calcTag (lv.calcBlockAddress address)
      ∉ cacheSet lv (lv.calcIndex (lv.calcBlockAddress address)))
    (hroom1 : ¬ lv.associativity
      ≤ (cacheSet lv (lv.calcIndex (lv.calcBlockAddress address))).length)
    (hmiss2 : l2.calcTag (l2.calcBlockAddress (lv.calcBlockAddress address))
      ∉ cacheSet l2 (l2.calcIndex (l2.calcBlockAddress (lv.calcBlockAddress address))))
    (hroom2 : ¬ l2.associativity
      ≤ (cacheSet l2 (l2.calcIndex (l2.calcBlockAddress (lv.calcBlockAddress address)))).length)
    (hidx2 : l2.calcIndex (l2.calcBlockAddress (lv.calcBlockAddress address))
      < l2.cacheMetadata.length) :
    ∃ lv' l2', (run (fuel + 2) [lv, l2] (.access hasLower op address)).1 = [lv', l2']
      ∧ dictLookup
          (metaDict l2' (l2.calcIndex (l2.calcBlockAddress (lv.calcBlockAddress address))))
          (l2.calcTag (l2.calcBlockAddress (lv.calcBlockAddress address)))
        = some (hasLower && (op == "W")) := by
  rw [run_access_miss_notfull (fuel + 1) lv [l2] hasLower op address hmiss1 hroom1]
  rw [run_access_miss_notfull fuel l2 [] true (if hasLower then op else "R")
    (lv.calcBlockAddress address) hmiss2 hroom2]
  refine ⟨lv.insertBlock (lv.calcIndex (lv.calcBlockAddress address))
      (lv.calcTag (lv.calcBlockAddress address)) (op == "W"),
    l2.insertBlock (l2.calcIndex (l2.calcBlockAddress (lv.calcBlockAddress address)))
      (l2.calcTag (l2.calcBlockAddress (lv.calcBlockAddress address)))
      ((if hasLower then op else "R") == "W"), ?_, ?_⟩
  · simp only [run_nil_levels]
  · rw [metaDict_insertBlock, if_pos ⟨rfl, hidx2⟩, dictLookup_insert_self]
    congr 1
    cases hasLower
    · simp
    · simp

/-- C3 amended witness: with a requester side present (`hasLower = true`),
a Write miss allocates a dirty entry at the backing level: the Write was
forwarded. -/
theorem c3_amended_forwarded_op_witness :
    ∃ lv' l2', (run 6 [sampleL1, sampleL2] (.access true "W" 0)).1 = [lv', l2']
      ∧ dictLookup
          (metaDict l2' (sampleL2.calcIndex (sampleL2.calcBlockAddress (sampleL1.calcBlockAddress 0))))
          (sampleL2.calcTag (sampleL2.calcBlockAddress (sampleL1.calcBlockAddress 0)))
        = some (true && ("W" == "W")) :=
  c3_amended_forwarded_op 4 sampleL1 sampleL2 true "W" 0
    (by decide) (by decide) (by decide) (by decide) (by decide)

lemma AllInv_sample1 : AllInv [sampleL1] := by
  intro x hx
  rcases List.mem_singleton.mp hx with rfl
  exact LevelInv_sampleL1

lemma AllInv_sample12 : AllInv [sampleL1, sampleL2] := by
  intro x hx
  rcases List.mem_cons.mp hx with rfl | hx
  · exact LevelInv_sampleL1
  · rcases List.mem_singleton.mp hx with rfl
    exact LevelInv_sampleL2

/-- C4: after any sequence of `access` operations on a hierarchy of
well-formed levels, every cache set of every level holds at most
`associativity` tags (whenever a set is at capacity on a miss, a victim is
evicted before the new block is inserted). -/
theorem c4_capacity_invariant (levels : List CacheLevel) (trace : List (Op × Nat))
    (hinv : AllInv levels) :
    ∀ lv ∈ (runTrace levels trace).1, ∀ i, (cacheSet lv i).length ≤ lv.associativity := by
  intro lv hlv i
  unfold runTrace at hlv
  exact ((runTrace_AllInv trace levels [] hinv) lv hlv).2.1 i

/-- C4 witness: the direct-mapped `sampleL1` replaying three conflicting
accesses keeps set 0 within its associativity of 1. -/
theorem c4_capacity_invariant_witness :
    (cacheSet ((runTrace [sampleL1] [("W", 0), ("R", 256), ("W", 64)]).1.headD sampleL1) 0).length
      ≤ ((runTrace [sampleL1] [("W", 0), ("R", 256), ("W", 64)]).1.headD sampleL1).associativity :=
  c4_capacity_invariant [sampleL1] [("W", 0), ("R", 256), ("W", 64)] AllInv_sample1
    ((runTrace [sampleL1] [("W", 0), ("R", 256), ("W", 64)]).1.headD sampleL1) (by decide) 0

/-- C10: for every set index `i`, the key set of `cache[i]` equals the key
set of `cache_metadata[i]` after every `access`, `evict`, and `invalidate`
operation on a hierarchy of well-formed levels: a tag is inserted into and
deleted from both structures together. -/
theorem c10_metadata_sync (fuel : Nat) (levels : List CacheLevel) (req : Req)
    (hfuel : 3 * levels.length + 2 ≤ fuel) (hinv : AllInv levels) :
    ∀ lv ∈ (run fuel levels req).1, ∀ i t,
      t ∈ cacheSet lv i ↔ t ∈ (metaDict lv i).map Prod.fst :=
  fun lv hlv => ((run_AllInv fuel levels req hfuel hinv) lv hlv).2.2.2

/-- C10 witness: after a write access on the two-level hierarchy, tag 0 is
in set 0 of the outer level exactly as it is in its metadata keys. -/
theorem c10_metadata_sync_witness :
    0 ∈ cacheSet ((run 9 [sampleL1, sampleL2] (.access false "W" 0)).1.headD sampleL1) 0
      ↔ 0 ∈ (metaDict ((run 9 [sampleL1, sampleL2] (.access false "W" 0)).1.headD sampleL1) 0).map
          Prod.fst :=
  c10_metadata_sync 9 [sampleL1, sampleL2] (.access false "W" 0) (by decide) AllInv_sample12
    ((run 9 [sampleL1, sampleL2] (.access false "W" 0)).1.headD sampleL1) (by decide) 0 0

/-- C5: invalidating a resident block removes it from this level, reporting
the write-back exactly once, before the eviction event that marks the
removal, and delivering the data to the backing side (the `access('W', ...)`
on `rest` happens between those two reports); a clean block's invalidation
reports no write-back.  `evict` removes its victim through this same
`invalidate`, so the property covers eviction as well. -/
theorem c5_writeback_before_removal (fuel : Nat) (lv : CacheLevel) (rest : List CacheLevel)
    (a : Nat)
    (hres : lv.calcTag a ∈ cacheSet lv (lv.calcIndex a))
    (hnd : (cacheSet lv (lv.calcIndex a)).Nodup)
    (hname : lv.name ∉ rest.map CacheLevel.name) :
    ∃ lv2 rest2,
      run (fuel + 1) (lv :: rest) (.invalidate a)
        = (lv2 :: rest2,
           (if lv.isDirty a then
              Event.writeback lv.name a :: (run fuel rest (.access true "W" a)).2
            else []) ++ [Event.eviction lv.name a])
      ∧ lv.calcTag a ∉ cacheSet lv2 (lv.calcIndex a)
      ∧ rest2 = (if lv.isDirty a then (run fuel rest (.access true "W" a)).1 else rest)
      ∧ ((if lv.isDirty a then
            Event.writeback lv.name a :: (run fuel rest (.access true "W" a)).2
          else []) ++ [Event.eviction lv.name a]).count (Event.writeback lv.name a)
        = (if lv.isDirty a then 1 else 0) := by
  have hidxlen : lv.calcIndex a < lv.cache.length := by
    by_contra hge
    rw [show cacheSet lv (lv.calcIndex a) = [] from
      List.getD_eq_default _ _ (by omega)] at hres
    simp at hres
  have hrw := run_invalidate_resident fuel lv rest a hres
  have hnotin : lv.calcTag a ∉ cacheSet (lv.eraseBlock (lv.calcIndex a) (lv.calcTag a))
      (lv.calcIndex a) := by
    rw [cacheSet_eraseBlock, if_pos ⟨rfl, hidxlen⟩]
    intro hmem
    exact (hnd.mem_erase_iff.mp hmem).1 rfl
  have hwbcount : ∀ evs2 : List Event, (∀ e ∈ evs2, eventLevel e ∈ rest.map CacheLevel.name) →
      evs2.count (Event.writeback lv.name a) = 0 := by
    intro evs2 hlevels
    rw [List.count_eq_zero]
    intro hmem
    have := hlevels _ hmem
    simp only [eventLevel] at this
    exact hname this
  by_cases hd : lv.isDirty a = true
  · have hd' : (dictLookup (metaDict lv (lv.calcIndex a)) (lv.calcTag a)).getD false = true := hd
    rw [if_pos hd', if_pos hd'] at hrw
    refine ⟨lv.eraseBlock (lv.calcIndex a) (lv.calcTag a),
      (run fuel rest (.access true "W" a)).1, ?_, hnotin, ?_, ?_⟩
    · rw [hrw, if_pos hd]
    · rw [if_pos hd]
    · rw [if_pos hd, if_pos hd]
      rw [List.count_append, List.count_cons]
      have h0 := hwbcount (run fuel rest (.access true "W" a)).2
        (run_event_levels fuel rest (.access true "W" a))
      rw [h0]
      simp
  · have hd' : ¬ (dictLookup (metaDict lv (lv.calcIndex a)) (lv.calcTag a)).getD false = true := hd
    rw [if_neg hd', if_neg hd'] at hrw
    refine ⟨lv.eraseBlock (lv.calcIndex a) (lv.calcTag a), rest, ?_, hnotin, ?_, ?_⟩
    · rw [hrw, if_neg hd]
    · rw [if_neg hd]
    · rw [if_neg hd, if_neg hd]
      simp

/-- C5 witness: after `Write(0)` populates `sampleL1` with a dirty block, an
`invalidate(0)` with backing side `sampleL2` reports the write-back once,
delivers it, and removes the entry. -/
theorem c5_writeback_before_removal_witness :
    ∃ lv2 rest2,
      run 4 (((accessTop [sampleL1] "W" 0).1.headD sampleL1) :: [sampleL2]) (.invalidate 0)
        = (lv2 :: rest2,
           (if ((accessTop [sampleL1] "W" 0).1.headD sampleL1).isDirty 0 then
              Event.writeback ((accessTop [sampleL1] "W" 0).1.headD sampleL1).name 0
                :: (run 3 [sampleL2] (.access true "W" 0)).2
            else []) ++ [Event.eviction ((accessTop [sampleL1] "W" 0).1.headD sampleL1).name 0])
      ∧ ((accessTop [sampleL1] "W" 0).1.headD sampleL1).calcTag 0
          ∉ cacheSet lv2 (((accessTop [sampleL1] "W" 0).1.headD sampleL1).calcIndex 0)
      ∧ rest2 = (if ((accessTop [sampleL1] "W" 0).1.headD sampleL1).isDirty 0 then
            (run 3 [sampleL2] (.access true "W" 0)).1 else [sampleL2])
      ∧ ((if ((accessTop [sampleL1] "W" 0).1.headD sampleL1).isDirty 0 then
            Event.writeback ((accessTop [sampleL1] "W" 0).1.headD sampleL1).name 0
              :: (run 3 [sampleL2] (.access true "W" 0)).2
          else []) ++ [Event.eviction ((accessTop [sampleL1] "W" 0).1.headD sampleL1).name 0]).count
          (Event.writeback ((accessTop [sampleL1] "W" 0).1.headD sampleL1).name 0)
        = (if ((accessTop [sampleL1] "W" 0).1.headD sampleL1).isDirty 0 then 1 else 0) :=
  c5_writeback_before_removal 3 ((accessTop [sampleL1] "W" 0).1.headD sampleL1) [sampleL2] 0
    (by decide) (by decide) (by decide)

/-- C2 counterexample: `sampleL1` has a backing side (`sampleL2`), so by the
claim no Write may mark a block dirty at `sampleL1`.  Yet a write miss
allocates the block dirty at `sampleL1` (dirty = `operation == 'W'`
regardless of the backing side), and a write hit (after a clean Read
allocation) also sets the dirty flag unconditionally. -/
theorem c2_counterexample :
    (runTrace [sampleL1, sampleL2] [("W", 0)]).1.map (fun lv => lv.isDirty 0) = [true, false]
    ∧ (runTrace [sampleL1, sampleL2] [("R", 0), ("W", 0)]).1.map (fun lv => lv.isDirty 0)
      = [true, false] := by
  exact ⟨by decide, by decide⟩

/-- C2 amended: a Write marks the block dirty at whatever level services it,
regardless of `backing_side`: on a write hit the dirty flag is set
unconditionally, and a miss allocates the entry with dirty = (operation is
Write). -/
theorem c2_amended_dirty_rule (fuel : Nat) (lv : CacheLevel) (rest : List CacheLevel)
    (hasLower : Bool) (op : Op) (address : Nat) (hinv : AllInv (lv :: rest)) :
    (lv.calcTag (lv.calcBlockAddress address)
        ∈ cacheSet lv (lv.calcIndex (lv.calcBlockAddress address)) →
      op = "W" →
      ∀ lv2 ∈ (run (fuel + 3) (lv :: rest) (.access hasLower op address)).1.head?,
        dictLookup (metaDict lv2 (lv.calcIndex (lv.calcBlockAddress address)))
          (lv.calcTag (lv.calcBlockAddress address)) = some true)
    ∧ (lv.calcTag (lv.calcBlockAddress address)
        ∉ cacheSet lv (lv.calcIndex (lv.calcBlockAddress address)) →
      ∀ lv2 ∈ (run (fuel + 3) (lv :: rest) (.access hasLower op address)).1.head?,
        dictLookup (metaDict lv2 (lv.calcIndex (lv.calcBlockAddress address)))
          (lv.calcTag (lv.calcBlockAddress address)) = some (op == "W")) := by
  obtain ⟨⟨hns, hcl, hml, hassoc⟩, hcap, hnd, hsync⟩ := hinv lv (List.mem_cons_self lv rest)
  have hidxlt : lv.calcIndex (lv.calcBlockAddress address) < 2 ^ lv.indexBits := by
    rw [← hns]
    exact calcIndex_lt lv _ hns
  have hidxmeta : lv.calcIndex (lv.calcBlockAddress address) < lv.cacheMetadata.length := by
    rw [hml, hns]
    exact hidxlt
  constructor
  · intro hc hop lv2 hlv2
    subst hop
    rw [run_access_hit (fuel + 2) lv rest hasLower "W" address hc] at hlv2
    simp only [List.head?_cons, Option.mem_def, Option.some.injEq] at hlv2
    subst hlv2
    rw [metaDict_updateRecency, if_pos (by decide : (("W" : Op) == "W") = true)]
    rw [metaDict_setDirty, if_pos ⟨rfl, hidxmeta⟩, dictLookup_insert_self]
  · intro hc lv2 hlv2
    by_cases hfull : lv.associativity
        ≤ (cacheSet lv (lv.calcIndex (lv.calcBlockAddress address))).length
    · have hlen_pos : 0 < (cacheSet lv (lv.calcIndex (lv.calcBlockAddress address))).length :=
        lt_of_lt_of_le hassoc hfull
      obtain ⟨t, ts, hs⟩ : ∃ t ts,
          cacheSet lv (lv.calcIndex (lv.calcBlockAddress address)) = t :: ts := by
        cases hsx : cacheSet lv (lv.calcIndex (lv.calcBlockAddress address)) with
        | nil => rw [hsx] at hlen_pos; simp at hlen_pos
        | cons a b => exact ⟨a, b, rfl⟩
      have hvmem : victimOf lv.policy t ts
          ∈ cacheSet lv (lv.calcIndex (lv.calcBlockAddress address)) := by
        rw [hs]
        unfold victimOf
        cases lv.policy
        · exact List.mem_cons_self t ts
        · exact List.mem_cons_self t ts
        · exact List.getLast_mem _
      have hvtag : lv.calcTag (lv.calcBlockAddressFromTagIndex (victimOf lv.policy t ts)
          (lv.calcIndex (lv.calcBlockAddress address))) = victimOf lv.policy t ts :=
        roundtrip_tag lv _ _ hidxlt
      have hvidx : lv.calcIndex (lv.calcBlockAddressFromTagIndex (victimOf lv.policy t ts)
          (lv.calcIndex (lv.calcBlockAddress address)))
          = lv.calcIndex (lv.calcBlockAddress address) :=
        roundtrip_index lv _ _ hns hidxlt
      have hres : lv.calcTag (lv.calcBlockAddressFromTagIndex (victimOf lv.policy t ts)
          (lv.calcIndex (lv.calcBlockAddress address)))
          ∈ cacheSet lv (lv.calcIndex (lv.calcBlockAddressFromTagIndex (victimOf lv.policy t ts)
            (lv.calcIndex (lv.calcBlockAddress address)))) := by
        rw [hvtag, hvidx]
        exact hvmem
      have hinvd := run_invalidate_resident fuel lv rest
        (lv.calcBlockAddressFromTagIndex (victimOf lv.policy t ts)
          (lv.calcIndex (lv.calcBlockAddress address))) hres
      rw [hvtag, hvidx] at hinvd
      have hev := run_evict_cons (fuel + 1) lv rest
        (lv.calcIndex (lv.calcBlockAddress address)) t ts hs
      rw [hinvd] at hev
      rw [run_access_miss_full (fuel + 2) lv rest hasLower op address _ _ _ hc hfull hev]
        at hlv2
      simp only [List.head?_cons, Option.mem_def, Option.some.injEq] at hlv2
      subst hlv2
      rw [metaDict_insertBlock]
      rw [if_pos ⟨rfl, by rw [eraseBlock_meta_length]; exact hidxmeta⟩, dictLookup_insert_self]
    · rw [run_access_miss_notfull (fuel + 2) lv rest hasLower op address hc hfull] at hlv2
      simp only [List.head?_cons, Option.mem_def, Option.some.injEq] at hlv2
      subst hlv2
      rw [metaDict_insertBlock, if_pos ⟨rfl, hidxmeta⟩, dictLookup_insert_self]

/-- C2 amended witness: a write miss at the outer level of the two-level
hierarchy allocates a dirty entry even though a backing side exists. -/
theorem c2_amended_dirty_rule_witness :
    dictLookup
        (metaDict ((run 3 [sampleL1, sampleL2] (.access false "W" 0)).1.headD sampleL1)
          (sampleL1.calcIndex (sampleL1.calcBlockAddress 0)))
        (sampleL1.calcTag (sampleL1.calcBlockAddress 0)) = some ("W" == "W") :=
  (c2_amended_dirty_rule 0 sampleL1 [sampleL2] false "W" 0 AllInv_sample12).2 (by decide)
    ((run 3 [sampleL1, sampleL2] (.access false "W" 0)).1.headD sampleL1) (by decide)
